import Mathlib

/-!
Verification of the scl_time library: a shallow embedding of its interval
algebra (`DateTimeInterval`), the sorted-interval intersection generator
(`intersection_of_intervals`), the tiling generator
(`time_intervals_between` / `DateTimeInterval.intervals`) and the segment
map (`MultiStatusInterval`), together with proofs and refutations of the
specified properties.

Modelling conventions:
* Instants are modelled as integers (microseconds since `datetime.min`,
  i.e. 0001-01-01 00:00 UTC).  `datetime.min` maps to 0 and `datetime.max`
  (9999-12-31 23:59:59.999999) maps to 315537897599999999.  The theorems
  quantify over all integers, a superset of the representable instants.
* Generators are modelled either as total recursive functions on lists
  (when the recursion is structurally bounded) or as fuel-indexed runners
  whose result is `Option` (`none` = fuel exhausted), so that termination
  claims are non-vacuous.
* Python-level exceptions are modelled with `Except String` (construction
  errors inside generators set an error flag).  `assert` statements are
  debug-mode internal checks; in the intersection machine they are
  modelled explicitly (a failing assert produces an error flag), elsewhere
  they are comments.
* `next()` on an exhausted stream raises `StopIteration`, which in the
  Python targeted by this library (its docstring cites the Python 3.4
  documentation) terminates the enclosing generator normally; the models
  encode that semantics.
-/

/-- Integer instant standing for `datetime.min` (UTC). -/
def DATE_TIME_MIN : Int := 0

/-- Integer instant standing for `datetime.max` (UTC), in microseconds
since `datetime.min`. -/
def DATE_TIME_MAX : Int := 315537897599999999

/-- Embeds the `DateTimeInterval` class: an immutable half-open period
`[start, end)`.  The field `end_` models the `end` attribute.  The
constructor invariant `end >= start` (the constructor raises `ValueError`
otherwise) is carried as a hypothesis `start ≤ end_` where needed. -/
structure DateTimeInterval where
  start : Int
  end_ : Int
deriving DecidableEq

namespace DateTimeInterval

/-- Constructor invariant of `DateTimeInterval.__init__`: `end >= start`. -/
def WF (i : DateTimeInterval) : Prop := i.start ≤ i.end_

instance (i : DateTimeInterval) : Decidable i.WF := by
  unfold WF; infer_instance

/-- Property `is_start_infinite`. -/
def is_start_infinite (i : DateTimeInterval) : Bool :=
  decide (i.start = DATE_TIME_MIN)

/-- Property `is_end_infinite`. -/
def is_end_infinite (i : DateTimeInterval) : Bool :=
  decide (i.end_ = DATE_TIME_MAX)

/-- Property `is_infinite`. -/
def is_infinite (i : DateTimeInterval) : Bool :=
  i.is_start_infinite || i.is_end_infinite

/-- Method `contains`: `start <= dt < end`. -/
def contains (self : DateTimeInterval) (dt : Int) : Bool :=
  decide (self.start ≤ dt) && decide (dt < self.end_)

/-- Method `covers`: `contains(other.start) and start <= other.end <= end`. -/
def covers (self other : DateTimeInterval) : Bool :=
  self.contains other.start &&
    (decide (self.start ≤ other.end_) && decide (other.end_ ≤ self.end_))

/-- Method `overlaps`: `other.start < end and start < other.end`. -/
def overlaps (self other : DateTimeInterval) : Bool :=
  decide (other.start < self.end_) && decide (self.start < other.end_)

/-- Method `overlap`: the intersection `[max(starts), min(ends))` when
`overlaps`, else `None`.  (The constructor call inside cannot raise: when
the operands overlap, `max(starts) <= min(ends)` fails only if it would
have returned `None`; in fact `max < min` holds.) -/
def overlap (self other : DateTimeInterval) : Option DateTimeInterval :=
  if self.overlaps other then
    some ⟨max self.start other.start, min self.end_ other.end_⟩
  else
    none

/-- Method `is_before`: `end <= other.start`. -/
def is_before (self other : DateTimeInterval) : Bool :=
  decide (self.end_ ≤ other.start)

/-- Method `is_after`: `other.is_before(self)`. -/
def is_after (self other : DateTimeInterval) : Bool :=
  other.is_before self

/-- Method `ends_before`: `end <= dt`. -/
def ends_before (self : DateTimeInterval) (dt : Int) : Bool :=
  decide (self.end_ ≤ dt)

/-- Method `ends_after`: `end > dt`. -/
def ends_after (self : DateTimeInterval) (dt : Int) : Bool :=
  decide (self.end_ > dt)

/-- Method `starts_after`: `start > dt`. -/
def starts_after (self : DateTimeInterval) (dt : Int) : Bool :=
  decide (self.start > dt)

/-- Method `starts_before`: `start < dt`. -/
def starts_before (self : DateTimeInterval) (dt : Int) : Bool :=
  decide (self.start < dt)

end DateTimeInterval

/-!  The tiling generator `time_intervals_between`.

The Python function is a generator with a `while start < end` loop.  It is
modelled as a fuel-indexed runner producing `none` when the fuel runs out
(so non-termination of the enumeration is expressible) and otherwise the
produced list of intervals together with an error flag: `true` means the
`DateTimeInterval` constructor raised (`interval_end < start`, which
happens for negative `interval_length`). -/

def time_intervals_between (fuel : Nat) (start end_ interval_length : Int)
    (limit_to_end : Bool) : Option (List DateTimeInterval × Bool) :=
  match fuel with
  | 0 => none
  | fuel + 1 =>
    if start < end_ then
      let interval_end := start + interval_length
      let interval_end := if limit_to_end = true ∧ end_ < interval_end then end_ else interval_end
      if interval_end < start then
        some ([], true)
      else
        match time_intervals_between fuel interval_end end_ interval_length limit_to_end with
        | none => none
        | some (l, err) => some (⟨start, interval_end⟩ :: l, err)
    else
      some ([], false)

/-- Method `DateTimeInterval.intervals`: raises on an infinite interval,
otherwise delegates to `time_intervals_between` (with the same fuel-runner
presentation). -/
def DateTimeInterval.intervals (self : DateTimeInterval) (interval_length : Int)
    (limit_by_end : Bool) (fuel : Nat) :
    Except String (Option (List DateTimeInterval × Bool)) :=
  if self.is_infinite then
    Except.error "cannot iterate over infinite interval"
  else
    Except.ok (time_intervals_between fuel self.start self.end_ interval_length limit_by_end)

/-- Enumerating `interval.intervals(len, limit)` terminates (the Python
`list(...)` call returns, possibly by raising): some fuel suffices. -/
def TerminatesI (i : DateTimeInterval) (interval_length : Int) (limit : Bool) : Prop :=
  ∃ fuel r, i.intervals interval_length limit fuel = Except.ok (some r)

/-!  The sorted-interval intersection `intersection_of_intervals`.

Two models of the same code:
* `intersection_of_intervals` - a total recursive function on lists giving
  the emitted sequence (recursion is bounded by the lengths of the two
  remaining streams);
* `intersectionRun` - a fuel-indexed step machine that also models the
  four `assert` statements (an assert failure sets the error flag) and
  the exact advance/termination order, used to settle the termination
  claim non-vacuously.  `next()` on an exhausted stream ends the
  generator immediately. -/

def interAux (fuel : Nat) (i1 : DateTimeInterval) (r1 : List DateTimeInterval)
    (i2 : DateTimeInterval) (r2 : List DateTimeInterval) : List DateTimeInterval :=
  match fuel with
  | 0 => []  -- never reached: every iteration consumes a stream element,
             -- so fuel `r1.length + r2.length + 1` suffices (see the
             -- correctness lemma below)
  | fuel + 1 =>
    if i1.is_before i2 then
      match r1 with
      | [] => []
      | h :: t => interAux fuel h t i2 r2
    else if i1.is_after i2 then
      match r2 with
      | [] => []
      | h :: t => interAux fuel i1 r1 h t
    else
      match i1.overlap i2 with
      | none => []  -- unreachable: not before and not after forces an overlap
      | some o =>
        o ::
          (if i1.end_ = o.end_ then
            match r1 with
            | [] => []
            | h1 :: t1 =>
              if i2.end_ = o.end_ then
                match r2 with
                | [] => []
                | h2 :: t2 => interAux fuel h1 t1 h2 t2
              else
                interAux fuel h1 t1 i2 r2
          else
            match r2 with
            | [] => []
            | h2 :: t2 => interAux fuel i1 r1 h2 t2)

/-- Generator `intersection_of_intervals` on finite streams: the two
initial `next()` calls end the generator at once when a stream is empty. -/
def intersection_of_intervals (intervals1 intervals2 : List DateTimeInterval) :
    List DateTimeInterval :=
  match intervals1, intervals2 with
  | [], _ => []
  | _, [] => []
  | i1 :: r1, i2 :: r2 => interAux (r1.length + r2.length + 1) i1 r1 i2 r2

/-- Cursor state of the intersection generator between iterations. -/
structure InterState where
  i1 : DateTimeInterval
  r1 : List DateTimeInterval
  i2 : DateTimeInterval
  r2 : List DateTimeInterval
deriving DecidableEq

/-- Continuation of one loop iteration: continue with a new state, end the
generator (loop exit or `StopIteration` from `next`), or die on a failed
`assert`. -/
inductive StepRes where
  | next : InterState → StepRes
  | stop : StepRes
  | fail : StepRes
deriving DecidableEq

/-- One iteration of the `while` loop of `intersection_of_intervals`:
the values yielded during the iteration (zero or one) and the
continuation.  All four `assert` statements are modelled. -/
def interStep (st : InterState) : List DateTimeInterval × StepRes :=
  if st.i1.is_before st.i2 then
    match st.r1 with
    | [] => ([], StepRes.stop)
    | h :: t => ([], StepRes.next ⟨h, t, st.i2, st.r2⟩)
  else if st.i1.is_after st.i2 then
    match st.r2 with
    | [] => ([], StepRes.stop)
    | h :: t => ([], StepRes.next ⟨st.i1, st.r1, h, t⟩)
  else if st.i1.overlaps st.i2 = false then
    ([], StepRes.fail)  -- assert i1.overlaps(i2)
  else
    match st.i1.overlap st.i2 with
    | none => ([], StepRes.fail)
    | some o =>
      if st.i1.end_ < o.end_ then ([o], StepRes.fail)  -- assert i1.end >= overlap.end
      else if st.i2.end_ < o.end_ then ([o], StepRes.fail)  -- assert i2.end >= overlap.end
      else if o.end_ < st.i1.end_ ∧ o.end_ < st.i2.end_ then
        ([o], StepRes.fail)  -- assert not (i1.end > overlap.end and i2.end > overlap.end)
      else if ¬ (st.i1.end_ = o.end_ ∨ st.i2.end_ = o.end_) then
        ([o], StepRes.fail)  -- assert i1.end == overlap.end or i2.end == overlap.end
      else if st.i1.end_ = o.end_ then
        match st.r1 with
        | [] => ([o], StepRes.stop)
        | h1 :: t1 =>
          if st.i2.end_ = o.end_ then
            match st.r2 with
            | [] => ([o], StepRes.stop)
            | h2 :: t2 => ([o], StepRes.next ⟨h1, t1, h2, t2⟩)
          else
            ([o], StepRes.next ⟨h1, t1, st.i2, st.r2⟩)
      else
        match st.r2 with
        | [] => ([o], StepRes.stop)
        | h2 :: t2 => ([o], StepRes.next ⟨st.i1, st.r1, h2, t2⟩)

/-- Fuel-indexed driver of the intersection loop.  `none` = out of fuel;
otherwise the full emitted list and an error flag (`true` = an `assert`
failed while consuming the generator). -/
def interRun (fuel : Nat) (st : InterState) : Option (List DateTimeInterval × Bool) :=
  match fuel with
  | 0 => none
  | fuel + 1 =>
    match interStep st with
    | (out, StepRes.stop) => some (out, false)
    | (out, StepRes.fail) => some (out, true)
    | (out, StepRes.next st') =>
      match interRun fuel st' with
      | none => none
      | some (l, e) => some (out ++ l, e)

/-- Consuming `intersection_of_intervals(l1, l2)` with the given fuel. -/
def intersectionRun (fuel : Nat) (l1 l2 : List DateTimeInterval) :
    Option (List DateTimeInterval × Bool) :=
  match l1, l2 with
  | [], _ => some ([], false)
  | _, [] => some ([], false)
  | a :: t1, b :: t2 => interRun fuel ⟨a, t1, b, t2⟩

/-!  Status values.

A Python status value as used by `MultiStatusInterval`: `None` (the
"no status" sentinel), a `str`, or a `bytes` value (the `isinstance`
check in `mark` accepts `str` and `bytes`). -/
inductive PyStatus where
  | none : PyStatus
  | str : String → PyStatus
  | bytes : List Nat → PyStatus
deriving DecidableEq

/-- The `isinstance(status, (str, bytes))` check in `mark`. -/
def isStrOrBytes : PyStatus → Bool
  | PyStatus.none => false
  | PyStatus.str _ => true
  | PyStatus.bytes _ => true

/-- The namedtuple `_SingleStatusInterval` (fields `status`, `interval`). -/
structure SingleStatusInterval where
  status : PyStatus
  interval : DateTimeInterval
deriving DecidableEq

/-- Function `_non_overlapping_intervals`: the parts of `of_interval`
before and after `with_interval` (each `None` when empty). -/
def non_overlapping_intervals (of_interval with_interval : DateTimeInterval) :
    Option DateTimeInterval × Option DateTimeInterval :=
  ( if of_interval.start < with_interval.start then
      some ⟨of_interval.start, with_interval.start⟩
    else none,
    if with_interval.end_ < of_interval.end_ then
      some ⟨with_interval.end_, of_interval.end_⟩
    else none )

/-- Loop of `_smooth_status_intervals`: `last` is the accumulator
`last_status_interval`; abutting equal-status neighbours are merged. -/
def smoothLoop (last : SingleStatusInterval) :
    List SingleStatusInterval → List SingleStatusInterval
  | [] => [last]
  | si :: rest =>
    if last.status = si.status ∧ last.interval.end_ = si.interval.start then
      smoothLoop ⟨last.status, ⟨last.interval.start, si.interval.end_⟩⟩ rest
    else
      last :: smoothLoop si rest

/-- Function `_smooth_status_intervals`. -/
def smooth_status_intervals : List SingleStatusInterval → List SingleStatusInterval
  | [] => []
  | si :: rest => smoothLoop si rest

/-- Loop body of `MultiStatusInterval._mark`: walks the stored list with
the `did_add` flag, keeping segments before `to_add`, splicing `to_add` in
once, and keeping the non-overlapping remainders of overlapped segments.
The debug `assert` statements of the source (which hold on every state
reachable here) are omitted. -/
def markLoop (to_add : SingleStatusInterval) :
    List SingleStatusInterval → Bool → List SingleStatusInterval
  | [], did_add => if did_add then [] else [to_add]
  | si :: rest, did_add =>
    if to_add.interval.is_after si.interval then
      si :: markLoop to_add rest did_add
    else if to_add.interval.is_before si.interval then
      (if did_add then [] else [to_add]) ++ si :: markLoop to_add rest true
    else
      (match (non_overlapping_intervals si.interval to_add.interval).1 with
        | some b => [⟨si.status, b⟩]
        | none => []) ++
      (if did_add then [] else [to_add]) ++
      (match (non_overlapping_intervals si.interval to_add.interval).2 with
        | some a => [⟨si.status, a⟩]
        | none => []) ++
      markLoop to_add rest true

/-- The class `MultiStatusInterval`: the bounding interval and the stored
ascending list of single-status segments. -/
structure MultiStatusInterval where
  interval : DateTimeInterval
  intervals : List SingleStatusInterval
deriving DecidableEq

namespace MultiStatusInterval

/-- A fresh `MultiStatusInterval(interval)`: empty segment list. -/
def mk0 (interval : DateTimeInterval) : MultiStatusInterval := ⟨interval, []⟩

/-- Scan inside `status`: stop as soon as a segment starts after the
instant (`break`, falling through to `return None`), else return the
status of the first segment containing it. -/
def statusLoop : List SingleStatusInterval → Int → PyStatus
  | [], _ => PyStatus.none
  | si :: rest, dt =>
    if si.interval.starts_after dt then PyStatus.none
    else if si.interval.contains dt then si.status
    else statusLoop rest dt

/-- Method `status`. -/
def status (self : MultiStatusInterval) (dt : Int) : PyStatus :=
  if self.interval.contains dt then statusLoop self.intervals dt
  else PyStatus.none

/-- Method `intervals_with_status`. -/
def intervals_with_status (self : MultiStatusInterval) (st : PyStatus) :
    List DateTimeInterval :=
  (self.intervals.filter (fun si => si.status = st)).map (fun si => si.interval)

/-- Method `_mark`: splice `to_add` into the stored list and smooth. -/
def markAdd (self : MultiStatusInterval) (to_add : SingleStatusInterval) :
    MultiStatusInterval :=
  { self with intervals := smooth_status_intervals (markLoop to_add self.intervals false) }

/-- Method `mark`: raises `ValueError` unless the status is `str`/`bytes`,
clips the interval to the bounding interval, and splices when the clip is
not `None`. -/
def mark (self : MultiStatusInterval) (interval : DateTimeInterval)
    (status : PyStatus) : Except String MultiStatusInterval :=
  if isStrOrBytes status = false then
    Except.error "status must be string"
  else
    match self.interval.overlap interval with
    | Option.none => Except.ok self
    | Option.some clipped => Except.ok (self.markAdd ⟨status, clipped⟩)

/-- Calling `mark` as a statement: on an exception the object state is
unchanged (the exception propagates before `_mark` runs). -/
def markD (self : MultiStatusInterval) (interval : DateTimeInterval)
    (status : PyStatus) : MultiStatusInterval :=
  match self.mark interval status with
  | Except.ok m => m
  | Except.error _ => self

/-- A sequence of `mark` statements, first to last. -/
def foldMarks (self : MultiStatusInterval)
    (ops : List (DateTimeInterval × PyStatus)) : MultiStatusInterval :=
  ops.foldl (fun m op => m.markD op.1 op.2) self

end MultiStatusInterval

/-! Basic unfolding lemmas for the interval predicates. -/

theorem contains_iff (i : DateTimeInterval) (t : Int) :
    i.contains t = true ↔ i.start ≤ t ∧ t < i.end_ := by
  simp [DateTimeInterval.contains]

theorem covers_iff (i j : DateTimeInterval) :
    i.covers j = true ↔
      (i.start ≤ j.start ∧ j.start < i.end_) ∧ i.start ≤ j.end_ ∧ j.end_ ≤ i.end_ := by
  simp [DateTimeInterval.covers, DateTimeInterval.contains]

theorem overlaps_iff (i j : DateTimeInterval) :
    i.overlaps j = true ↔ j.start < i.end_ ∧ i.start < j.end_ := by
  simp [DateTimeInterval.overlaps]

theorem is_before_iff (i j : DateTimeInterval) :
    i.is_before j = true ↔ i.end_ ≤ j.start := by
  simp [DateTimeInterval.is_before]

theorem is_after_iff (i j : DateTimeInterval) :
    i.is_after j = true ↔ j.end_ ≤ i.start := by
  simp [DateTimeInterval.is_after, DateTimeInterval.is_before]

theorem starts_after_iff (i : DateTimeInterval) (t : Int) :
    i.starts_after t = true ↔ t < i.start := by
  simp [DateTimeInterval.starts_after]

theorem overlap_eq_some_iff (i j o : DateTimeInterval) :
    i.overlap j = some o ↔
      (j.start < i.end_ ∧ i.start < j.end_) ∧
        o = ⟨max i.start j.start, min i.end_ j.end_⟩ := by
  unfold DateTimeInterval.overlap
  by_cases h : j.start < i.end_ ∧ i.start < j.end_
  · rw [if_pos (by rw [overlaps_iff]; exact h)]
    simp [h, eq_comm]
  · rw [if_neg (by rw [overlaps_iff]; exact h)]
    simp [h]

theorem overlap_eq_none_iff (i j : DateTimeInterval) :
    i.overlap j = none ↔ ¬(j.start < i.end_ ∧ i.start < j.end_) := by
  unfold DateTimeInterval.overlap
  by_cases h : j.start < i.end_ ∧ i.start < j.end_
  · rw [if_pos (by rw [overlaps_iff]; exact h)]
    simp [h]
  · rw [if_neg (by rw [overlaps_iff]; exact h)]
    simp [h]

/-- Claim C5 (code bug evidence): `mark` with the "no status" sentinel
`None` always raises `ValueError("status must be string")`, for every
`MultiStatusInterval` and every interval, although the class documentation
states that `None` is a valid status. -/
theorem C5_mark_none_always_raises :
    ∀ (m : MultiStatusInterval) (i : DateTimeInterval),
      m.mark i PyStatus.none = Except.error "status must be string" := by
  intro m i
  simp [MultiStatusInterval.mark, isStrOrBytes]

/-- Claim C9, counterexample: `x = [5,5)` and `y = [0,10)` do overlap
according to `overlaps`, their `overlap` is the empty interval `[5,5)`,
and that result is not covered by `x` - so the claim, quantified over all
intervals, is false. -/
theorem C9_counterexample :
    (⟨5, 5⟩ : DateTimeInterval).overlaps ⟨0, 10⟩ = true ∧
    DateTimeInterval.overlap ⟨5, 5⟩ ⟨0, 10⟩ = some ⟨5, 5⟩ ∧
    (⟨5, 5⟩ : DateTimeInterval).covers ⟨5, 5⟩ = false := by
  decide

/-- Claim C9 (amended: the covering/maximality part additionally assumes
both operands have positive length): `overlaps` and `overlap` are
symmetric; when `x.overlaps(y)` holds the overlap exists; and for
positive-length operands the overlap is covered by both `x` and `y` and is
the greatest interval covered by both - in particular no interval strictly
covering it is covered by both. -/
theorem C9_overlap_symm_covered_maximal :
    ∀ x y : DateTimeInterval,
      (x.overlaps y = y.overlaps x) ∧
      (x.overlap y = y.overlap x) ∧
      (x.overlaps y = true → (x.overlap y).isSome = true) ∧
      (x.start < x.end_ → y.start < y.end_ →
        ∀ o, x.overlap y = some o →
          x.covers o = true ∧ y.covers o = true ∧
          (∀ z, z.WF → x.covers z = true → y.covers z = true → o.covers z = true) ∧
          (∀ z, z.WF → x.covers z = true → y.covers z = true →
            z.covers o = true → z = o)) := by
  intro x y
  have hsym : x.overlaps y = y.overlaps x := by
    simp only [DateTimeInterval.overlaps]
    by_cases h1 : y.start < x.end_ <;> by_cases h2 : x.start < y.end_ <;>
      simp [h1, h2]
  refine ⟨hsym, ?_, ?_, ?_⟩
  · unfold DateTimeInterval.overlap
    rw [hsym]
    by_cases h : y.overlaps x = true
    · simp [h, max_comm, min_comm]
    · simp only [Bool.not_eq_true] at h
      simp [h]
  · intro h
    simp [DateTimeInterval.overlap, h]
  · intro hx hy o ho
    rw [overlap_eq_some_iff] at ho
    obtain ⟨⟨h1, h2⟩, rfl⟩ := ho
    refine ⟨?_, ?_, ?_, ?_⟩
    · rw [covers_iff]
      simp only [max_le_iff, le_max_iff, lt_min_iff, min_le_iff, le_min_iff]
      omega
    · rw [covers_iff]
      simp only [max_le_iff, le_max_iff, lt_min_iff, min_le_iff, le_min_iff]
      omega
    · intro z hz hxz hyz
      rw [covers_iff] at hxz hyz
      rw [covers_iff]
      unfold DateTimeInterval.WF at hz
      simp only [max_le_iff, le_max_iff, lt_min_iff, min_le_iff, le_min_iff]
      omega
    · intro z hz hxz hyz hzo
      rw [covers_iff] at hxz hyz hzo
      unfold DateTimeInterval.WF at hz
      simp only [max_le_iff, le_max_iff, lt_min_iff, min_le_iff, le_min_iff] at hzo
      cases z with
      | mk zs ze =>
        simp only [DateTimeInterval.mk.injEq]
        simp only [DateTimeInterval.start, DateTimeInterval.end_] at *
        constructor <;> omega

/-- Claim C9 witness: the amended theorem applied at `x = [0,10)`,
`y = [5,15)` (overlap `[5,10)`), with the covering facts also
instantiated at `z = [6,9)`. -/
theorem C9_witness :
    ((0:Int) < 10 ∧ (5:Int) < 15) ∧
    ((⟨0,10⟩ : DateTimeInterval).covers ⟨5,10⟩ = true ∧
     (⟨5,15⟩ : DateTimeInterval).covers ⟨5,10⟩ = true ∧
     (⟨5,10⟩ : DateTimeInterval).covers ⟨6,9⟩ = true) := by
  have h := (C9_overlap_symm_covered_maximal ⟨0,10⟩ ⟨5,15⟩).2.2.2
    (by decide) (by decide) ⟨5,10⟩ (by decide)
  exact ⟨⟨by decide, by decide⟩, h.1, h.2.1,
    h.2.2.1 ⟨6,9⟩ (by decide) (by decide) (by decide)⟩

/-! Tiling termination and reconstruction. -/

/-- With `interval_length = 0` the tiling loop never terminates: no amount
of fuel completes the enumeration. -/
theorem tib_zero_length_diverges :
    ∀ (fuel : Nat) (s e : Int), s < e →
      time_intervals_between fuel s e 0 true = none := by
  intro fuel
  induction fuel with
  | zero => intro s e _; rfl
  | succ n ih =>
    intro s e hse
    unfold time_intervals_between
    rw [if_pos hse]
    have h0 : s + (0:Int) = s := by omega
    simp only [h0]
    rw [if_neg (by omega)]
    rw [if_neg (by omega)]
    rw [ih s e hse]

/-- Claim C6, counterexample: the bounded interval `[10,11)` with duration
0 - the tiling enumeration does not terminate. -/
theorem C6_counterexample : ¬ TerminatesI ⟨10, 11⟩ 0 true := by
  rintro ⟨fuel, r, h⟩
  have hinf : (⟨10, 11⟩ : DateTimeInterval).is_infinite = false := by decide
  simp only [DateTimeInterval.intervals, hinf] at h
  rw [if_neg (by simp)] at h
  have hz := tib_zero_length_diverges fuel 10 11 (by omega)
  rw [hz] at h
  exact Option.noConfusion (Except.ok.inj h)

/-- For a negative duration the first loop iteration raises from the
`DateTimeInterval` constructor, ending the enumeration. -/
theorem tib_neg_terminates (s e d : Int) (limit : Bool) (hd : d < 0) :
    ∃ r, time_intervals_between 1 s e d limit = some r := by
  unfold time_intervals_between
  by_cases hse : s < e
  · rw [if_pos hse]
    have hcond : (if limit = true ∧ e < s + d then e else s + d) = s + d := by
      rw [if_neg]; rintro ⟨_, h⟩; omega
    simp only [hcond]
    rw [if_pos (by omega)]
    exact ⟨([], true), rfl⟩
  · rw [if_neg hse]
    exact ⟨([], false), rfl⟩

/-- Fuel monotonicity of the tiling runner: once the enumeration
completes with some fuel, more fuel gives the same result. -/
theorem tib_mono :
    ∀ (f : Nat) (s : Int) (r : List DateTimeInterval × Bool) (f' : Nat)
      (e d : Int) (limit : Bool),
      time_intervals_between f s e d limit = some r → f ≤ f' →
      time_intervals_between f' s e d limit = some r := by
  intro f
  induction f with
  | zero => intro s r f' e d limit h; exact absurd h (by simp [time_intervals_between])
  | succ k ih =>
    intro s r f' e d limit h hle
    obtain ⟨k', rfl⟩ : ∃ k', f' = k' + 1 := ⟨f' - 1, by omega⟩
    unfold time_intervals_between at h ⊢
    by_cases hse : s < e
    · rw [if_pos hse] at h ⊢
      set ie := if limit = true ∧ e < s + d then e else s + d with hie
      by_cases herr : ie < s
      · rw [if_pos herr] at h ⊢; exact h
      · rw [if_neg herr] at h ⊢
        cases hrec : time_intervals_between k ie e d limit with
        | none => rw [hrec] at h; exact absurd h (by simp)
        | some rr =>
          rw [hrec] at h
          rw [ih ie rr k' e d limit hrec (by omega)]
          exact h
    · rw [if_neg hse] at h ⊢; exact h

/-- For a positive duration the loop advances each iteration and
terminates without error. -/
theorem tib_pos_terminates (d : Int) (hd : 0 < d) (e : Int) (limit : Bool) :
    ∀ (n : Nat) (s : Int), (e - s).toNat ≤ n →
      ∃ l, time_intervals_between (n + 1) s e d limit = some (l, false) := by
  intro n
  induction n using Nat.strong_induction_on with
  | _ n ih =>
    intro s hs
    by_cases hse : s < e
    · have hn : 0 < n := by omega
      set ie := if limit = true ∧ e < s + d then e else s + d with hie
      have hie1 : s < ie := by rw [hie]; split <;> omega
      have hie2 : (e - ie).toNat < (e - s).toNat := by rw [hie]; split <;> omega
      obtain ⟨l, hl⟩ := ih (e - ie).toNat (by omega) ie (le_refl _)
      have hl' := tib_mono _ _ _ n e d limit hl (by omega)
      refine ⟨⟨s, ie⟩ :: l, ?_⟩
      unfold time_intervals_between
      rw [if_pos hse]
      dsimp only
      rw [← hie]
      rw [if_neg (by omega)]
      rw [hl']
    · exact ⟨[], by unfold time_intervals_between; rw [if_neg hse]⟩

/-- Claim C6 (amended: the duration must be nonzero): for every bounded
interval and nonzero duration, enumerating `intervals(length, limit)`
terminates - completing the tiling for positive durations, raising from
the interval constructor on the first element for negative ones. -/
theorem C6_tiling_terminates :
    ∀ (i : DateTimeInterval) (interval_length : Int) (limit : Bool),
      i.is_infinite = false → interval_length ≠ 0 →
      TerminatesI i interval_length limit := by
  intro i d limit hinf hd
  unfold TerminatesI DateTimeInterval.intervals
  rw [hinf]
  simp only [Bool.false_eq_true, if_false]
  rcases lt_trichotomy d 0 with h | h | h
  · obtain ⟨r, hr⟩ := tib_neg_terminates i.start i.end_ d limit h
    exact ⟨1, r, by rw [hr]⟩
  · exact absurd h hd
  · obtain ⟨l, hl⟩ :=
      tib_pos_terminates d h i.end_ limit (i.end_ - i.start).toNat i.start (le_refl _)
    exact ⟨(i.end_ - i.start).toNat + 1, (l, false), by rw [hl]⟩

/-- Claim C6 witness: tiling `[10,16)` by 3 terminates. -/
theorem C6_witness : TerminatesI ⟨10, 16⟩ 3 true :=
  C6_tiling_terminates ⟨10, 16⟩ 3 true (by decide) (by decide)

/-- The reconstruction property of a tiling of `i` by pieces of length
`d`: consecutive pieces abut (no gaps, no overlaps), every piece is
non-empty and at most `d` long, every piece except the last is exactly
`d` long, the first piece starts at `i.start` and the last ends exactly
at `i.end`, and the tiling is empty only for an empty interval. -/
def TilingReconstructs (i : DateTimeInterval) (d : Int)
    (l : List DateTimeInterval) : Prop :=
  List.Chain' (fun a b => a.end_ = b.start) l ∧
  (∀ p ∈ l, p.start < p.end_ ∧ p.end_ - p.start ≤ d) ∧
  (∀ p ∈ l.dropLast, p.end_ = p.start + d) ∧
  (i.start < i.end_ →
    l.head?.map DateTimeInterval.start = some i.start ∧
    l.getLast?.map DateTimeInterval.end_ = some i.end_) ∧
  (l = [] ↔ ¬ i.start < i.end_)

/-- Core induction for the tiling round trip with `limit_to_end = True`
and a positive duration. -/
theorem tib_pos_reconstructs (d : Int) (hd : 0 < d) (e : Int) :
    ∀ (n : Nat) (s : Int), (e - s).toNat ≤ n → s ≤ e →
      ∃ l, time_intervals_between (n + 1) s e d true = some (l, false) ∧
        TilingReconstructs ⟨s, e⟩ d l := by
  intro n
  induction n using Nat.strong_induction_on with
  | _ n ih =>
    intro s hs hse0
    by_cases hse : s < e
    · have hn : 0 < n := by omega
      obtain ⟨ie, hie, hie1, hie2, hie3, hie4⟩ :
          ∃ ie, (if true = true ∧ e < s + d then e else s + d) = ie ∧
            s < ie ∧ ie ≤ e ∧ ie ≤ s + d ∧ (ie < e → ie = s + d) := by
        by_cases hc : e < s + d
        · exact ⟨e, by simp [hc], by omega, by omega, by omega, by omega⟩
        · exact ⟨s + d, by simp [hc], by omega, by omega, by omega, by omega⟩
      have hmeas : (e - ie).toNat < (e - s).toNat := by omega
      obtain ⟨l', hl', hch, hmem, hdrop, hhl, hemp⟩ :=
        ih (e - ie).toNat (by omega) ie (le_refl _) hie2
      dsimp only at hhl hemp
      have hl'' := tib_mono _ _ _ n e d true hl' (by omega)
      refine ⟨⟨s, ie⟩ :: l', ?_, ?_, ?_, ?_, ?_, ?_⟩
      · unfold time_intervals_between
        rw [if_pos hse]
        dsimp only
        rw [hie]
        rw [if_neg (by omega)]
        rw [hl'']
      · cases l' with
        | nil => simp
        | cons h t =>
          have hne : ie < e := by
            by_contra hcon
            exact absurd (hemp.mpr hcon) (by simp)
          obtain ⟨hh, _⟩ := hhl hne
          rw [List.chain'_cons]
          refine ⟨?_, hch⟩
          simp only [List.head?_cons, Option.map_some] at hh
          exact (Option.some.inj hh).symm
      · intro p hp
        rcases List.mem_cons.mp hp with rfl | hp'
        · constructor
          · exact hie1
          · show ie - s ≤ d; omega
        · exact hmem p hp'
      · cases l' with
        | nil => simp
        | cons h t =>
          have hne : ie < e := by
            by_contra hcon
            exact absurd (hemp.mpr hcon) (by simp)
          intro p hp
          rw [List.dropLast_cons₂] at hp
          rcases List.mem_cons.mp hp with rfl | hp'
          · show ie = s + d; exact hie4 hne
          · exact hdrop p hp'
      · intro _
        constructor
        · simp
        · cases l' with
          | nil =>
            have hee : ie = e := by
              have := hemp.mp rfl
              omega
            simp [hee]
          | cons h t =>
            rw [List.getLast?_cons_cons]
            have hne : ie < e := by
              by_contra hcon
              exact absurd (hemp.mpr hcon) (by simp)
            exact (hhl hne).2
      · constructor
        · intro h; exact absurd h (by simp)
        · intro h; exact absurd hse h
    · refine ⟨[], ?_, ?_, ?_, ?_, ?_, ?_⟩
      · unfold time_intervals_between; rw [if_neg hse]
      · simp
      · simp
      · simp
      · intro h; exact absurd h hse
      · simp [hse]

/-- Claim C7 (amended: the duration must be strictly positive):
tiling a bounded interval by `intervals(d, limit_to_end=True)` with
`d > 0` terminates without error and exactly reconstructs the interval. -/
theorem C7_tiling_round_trip :
    ∀ (i : DateTimeInterval) (d : Int),
      i.WF → i.is_infinite = false → 0 < d →
      ∃ fuel l, i.intervals d true fuel = Except.ok (some (l, false)) ∧
        TilingReconstructs i d l := by
  intro i d hwf hinf hd
  obtain ⟨l, hl, hrec⟩ :=
    tib_pos_reconstructs d hd i.end_ (i.end_ - i.start).toNat i.start (le_refl _) hwf
  refine ⟨(i.end_ - i.start).toNat + 1, l, ?_, ?_⟩
  · unfold DateTimeInterval.intervals
    rw [hinf]
    rw [if_neg (by simp)]
    rw [hl]
  · have : (⟨i.start, i.end_⟩ : DateTimeInterval) = i := rfl
    rwa [this] at hrec

/-- Claim C7, counterexample: with duration 0 on the bounded interval
`[10,12)` the enumeration never completes, so no tiling sequence (let
alone a reconstructing one) is produced. -/
theorem C7_counterexample :
    ¬ ∃ fuel l, (⟨10, 12⟩ : DateTimeInterval).intervals 0 true fuel =
        Except.ok (some (l, false)) ∧ TilingReconstructs ⟨10, 12⟩ 0 l := by
  rintro ⟨fuel, l, h, _⟩
  have hinf : (⟨10, 12⟩ : DateTimeInterval).is_infinite = false := by decide
  simp only [DateTimeInterval.intervals, hinf] at h
  rw [if_neg (by simp)] at h
  have hz := tib_zero_length_diverges fuel 10 12 (by omega)
  rw [hz] at h
  exact Option.noConfusion (Except.ok.inj h)

/-- Claim C7 witness: the amended theorem applied to `[10,16)` with
duration 3. -/
theorem C7_witness :
    ((⟨10, 16⟩ : DateTimeInterval).WF ∧
      (⟨10, 16⟩ : DateTimeInterval).is_infinite = false ∧ (0:Int) < 3) ∧
    (∃ fuel l, (⟨10, 16⟩ : DateTimeInterval).intervals 3 true fuel =
        Except.ok (some (l, false)) ∧ TilingReconstructs ⟨10, 16⟩ 3 l) :=
  ⟨⟨by decide, by decide, by decide⟩,
    C7_tiling_round_trip ⟨10, 16⟩ 3 (by decide) (by decide) (by decide)⟩

/-! The status query of `MultiStatusInterval`. -/

/-- In an ascending well-formed segment list, every later segment starts
at or after the end of the first one. -/
theorem ssi_chain_le_starts :
    ∀ (x : SingleStatusInterval) (l : List SingleStatusInterval),
      List.Chain' (fun a b => a.interval.end_ ≤ b.interval.start) (x :: l) →
      (∀ si ∈ l, si.interval.WF) →
      ∀ r ∈ l, x.interval.end_ ≤ r.interval.start := by
  intro x l
  induction l generalizing x with
  | nil => intro _ _ r hr; exact absurd hr (List.not_mem_nil r)
  | cons y l' ih =>
    intro hch hwf r hr
    rw [List.chain'_cons] at hch
    rcases List.mem_cons.mp hr with rfl | hr'
    · exact hch.1
    · have hy : y.interval.WF := hwf y (List.mem_cons_self y l')
      have := ih y hch.2 (fun si hsi => hwf si (List.mem_cons_of_mem y hsi)) r hr'
      unfold DateTimeInterval.WF at hy
      omega

/-- In an ascending well-formed segment list the segments are pairwise
ordered. -/
theorem ssi_chain_pairwise :
    ∀ (l : List SingleStatusInterval),
      List.Chain' (fun a b => a.interval.end_ ≤ b.interval.start) l →
      (∀ si ∈ l, si.interval.WF) →
      List.Pairwise (fun a b => a.interval.end_ ≤ b.interval.start) l := by
  intro l
  induction l with
  | nil => intro _ _; exact List.Pairwise.nil
  | cons x l' ih =>
    intro hch hwf
    refine List.Pairwise.cons ?_ ?_
    · exact ssi_chain_le_starts x l' hch
        (fun si hsi => hwf si (List.mem_cons_of_mem x hsi))
    · exact ih (List.Chain'.tail hch) (fun si hsi => hwf si (List.mem_cons_of_mem x hsi))

/-- The early-exit scan of `status` agrees with a plain search for the
first containing segment, on ascending well-formed lists. -/
theorem statusLoop_eq_find :
    ∀ (l : List SingleStatusInterval) (t : Int),
      List.Chain' (fun a b => a.interval.end_ ≤ b.interval.start) l →
      (∀ si ∈ l, si.interval.WF) →
      MultiStatusInterval.statusLoop l t =
        (match l.find? (fun si => si.interval.contains t) with
         | some si => si.status
         | Option.none => PyStatus.none) := by
  intro l
  induction l with
  | nil => intro t _ _; rfl
  | cons si rest ih =>
    intro t hch hwf
    unfold MultiStatusInterval.statusLoop
    by_cases h1 : si.interval.starts_after t = true
    · rw [if_pos h1]
      have ht : t < si.interval.start := (starts_after_iff _ _).mp h1
      have hwfsi : si.interval.WF := hwf si (List.mem_cons_self si rest)
      unfold DateTimeInterval.WF at hwfsi
      have hnone : (si :: rest).find? (fun s => s.interval.contains t) = Option.none := by
        rw [List.find?_eq_none]
        intro x hx
        rcases List.mem_cons.mp hx with rfl | hx'
        · cases hcc : x.interval.contains t with
          | false => simp
          | true => exact absurd ((contains_iff _ _).mp hcc) (by omega)
        · have hle := ssi_chain_le_starts si rest hch
            (fun s hs => hwf s (List.mem_cons_of_mem si hs)) x hx'
          cases hcc : x.interval.contains t with
          | false => simp
          | true => exact absurd ((contains_iff _ _).mp hcc) (by omega)
      rw [hnone]
    · rw [if_neg h1]
      by_cases h2 : si.interval.contains t = true
      · rw [if_pos h2]
        rw [List.find?_cons]
        rw [h2]
      · rw [if_neg h2]
        rw [List.find?_cons]
        rw [Bool.not_eq_true] at h2
        rw [h2]
        exact ih t (List.Chain'.tail hch)
          (fun s hs => hwf s (List.mem_cons_of_mem si hs))

/-- The concrete scenario state: bounding `[0,100)`, `mark([0,100),"A")`
then `mark([20,40),"B")`. -/
def statusScenario : MultiStatusInterval :=
  ((MultiStatusInterval.mk0 ⟨0, 100⟩).markD ⟨0, 100⟩ (PyStatus.str "A")).markD
    ⟨20, 40⟩ (PyStatus.str "B")

/-- Claim C4: on any `MultiStatusInterval` whose stored list is ascending
(the maintained invariant), `status(t)` is the no-status value outside the
bounding interval regardless of the stored segments, and otherwise the
status of the first (and, pairwise, unique) stored segment containing
`t`, or no-status; and the concrete scenario over `[0,100)` behaves as
specified. -/
theorem C4_status_query :
    (∀ (m : MultiStatusInterval) (t : Int),
      List.Chain' (fun a b => a.interval.end_ ≤ b.interval.start) m.intervals →
      (∀ si ∈ m.intervals, si.interval.WF) →
      (m.interval.contains t = false → m.status t = PyStatus.none) ∧
      (m.interval.contains t = true →
        m.status t =
          (match m.intervals.find? (fun si => si.interval.contains t) with
           | some si => si.status
           | Option.none => PyStatus.none)) ∧
      List.Pairwise (fun a b =>
        ¬(a.interval.contains t = true ∧ b.interval.contains t = true)) m.intervals) ∧
    statusScenario =
      ⟨⟨0, 100⟩, [⟨PyStatus.str "A", ⟨0, 20⟩⟩, ⟨PyStatus.str "B", ⟨20, 40⟩⟩,
        ⟨PyStatus.str "A", ⟨40, 100⟩⟩]⟩ ∧
    statusScenario.status 10 = PyStatus.str "A" ∧
    statusScenario.status 25 = PyStatus.str "B" ∧
    statusScenario.status 100 = PyStatus.none := by
  refine ⟨?_, by decide, by decide, by decide, by decide⟩
  intro m t hch hwf
  refine ⟨?_, ?_, ?_⟩
  · intro h
    simp [MultiStatusInterval.status, h]
  · intro h
    simp only [MultiStatusInterval.status, h, if_true]
    exact statusLoop_eq_find m.intervals t hch hwf
  · have hp := ssi_chain_pairwise m.intervals hch hwf
    refine hp.imp ?_
    intro a b hab hc
    obtain ⟨hca, hcb⟩ := hc
    rw [contains_iff] at hca hcb
    omega

/-- Claim C4 witness: the general part applied to the scenario state at
instant 25. -/
theorem C4_witness :
    statusScenario.status 25 =
      (match statusScenario.intervals.find? (fun si => si.interval.contains 25) with
       | some si => si.status
       | Option.none => PyStatus.none) :=
  ((C4_status_query.1 statusScenario 25
      (by
        have h : statusScenario.intervals =
            [⟨PyStatus.str "A", ⟨0, 20⟩⟩, ⟨PyStatus.str "B", ⟨20, 40⟩⟩,
              ⟨PyStatus.str "A", ⟨40, 100⟩⟩] := by decide
        rw [h]; simp)
      (by decide)).2.1 (by decide))

/-! Correctness of the sorted intersection. -/

/-- One-step unfolding of the intersection loop. -/
theorem interAux_succ_def (f : Nat) (i1 : DateTimeInterval)
    (r1 : List DateTimeInterval) (i2 : DateTimeInterval)
    (r2 : List DateTimeInterval) :
    interAux (f + 1) i1 r1 i2 r2 =
      if i1.is_before i2 then
        match r1 with
        | [] => []
        | h :: t => interAux f h t i2 r2
      else if i1.is_after i2 then
        match r2 with
        | [] => []
        | h :: t => interAux f i1 r1 h t
      else
        match i1.overlap i2 with
        | none => []
        | some o =>
          o ::
            (if i1.end_ = o.end_ then
              match r1 with
              | [] => []
              | h1 :: t1 =>
                if i2.end_ = o.end_ then
                  match r2 with
                  | [] => []
                  | h2 :: t2 => interAux f h1 t1 h2 t2
                else
                  interAux f h1 t1 i2 r2
            else
              match r2 with
              | [] => []
              | h2 :: t2 => interAux f i1 r1 h2 t2) := rfl

/-- Main invariant of the intersection loop: with adequate fuel, every
emitted interval is bounded inside one input interval on each side,
starts no earlier than both current cursors, and the output is ascending
and non-overlapping. -/
theorem interAux_spec :
    ∀ (fuel : Nat) (i1 : DateTimeInterval) (r1 : List DateTimeInterval)
      (i2 : DateTimeInterval) (r2 : List DateTimeInterval),
      r1.length + r2.length < fuel →
      List.Chain' (fun a b => a.end_ ≤ b.start) (i1 :: r1) →
      List.Chain' (fun a b => a.end_ ≤ b.start) (i2 :: r2) →
      (∀ a ∈ i1 :: r1, a.WF) → (∀ b ∈ i2 :: r2, b.WF) →
      (∀ o ∈ interAux fuel i1 r1 i2 r2,
        ((∃ a ∈ i1 :: r1, a.start ≤ o.start ∧ o.end_ ≤ a.end_) ∧
         (∃ b ∈ i2 :: r2, b.start ≤ o.start ∧ o.end_ ≤ b.end_)) ∧
        i1.start ≤ o.start ∧ i2.start ≤ o.start) ∧
      List.Chain' (fun a b => a.end_ ≤ b.start) (interAux fuel i1 r1 i2 r2) := by
  intro fuel
  induction fuel with
  | zero =>
    intro i1 r1 i2 r2 hlen _ _ _ _
    exact absurd hlen (by omega)
  | succ f ih =>
    intro i1 r1 i2 r2 hlen hch1 hch2 hwf1 hwf2
    have hwfi1 : i1.start ≤ i1.end_ := hwf1 i1 (List.mem_cons_self _ _)
    have hwfi2 : i2.start ≤ i2.end_ := hwf2 i2 (List.mem_cons_self _ _)
    rw [interAux_succ_def]
    by_cases hb : i1.is_before i2 = true
    · rw [if_pos hb]
      cases r1 with
      | nil =>
        exact ⟨fun o ho => absurd ho (List.not_mem_nil o), List.chain'_nil⟩
      | cons h t =>
        have hchpair : i1.end_ ≤ h.start := (List.chain'_cons.mp hch1).1
        obtain ⟨ihm, ihc⟩ := ih h t i2 r2 (by simp at hlen ⊢; omega)
          (List.Chain'.tail hch1) hch2
          (fun a haa => hwf1 a (List.mem_cons_of_mem _ haa)) hwf2
        refine ⟨?_, ihc⟩
        intro o ho
        obtain ⟨⟨⟨a, haa, hao⟩, hbex⟩, hb1, hb2⟩ := ihm o ho
        exact ⟨⟨⟨a, List.mem_cons_of_mem _ haa, hao⟩, hbex⟩, by omega, hb2⟩
    · by_cases ha : i1.is_after i2 = true
      · rw [if_neg hb, if_pos ha]
        cases r2 with
        | nil =>
          exact ⟨fun o ho => absurd ho (List.not_mem_nil o), List.chain'_nil⟩
        | cons h t =>
          have hchpair : i2.end_ ≤ h.start := (List.chain'_cons.mp hch2).1
          obtain ⟨ihm, ihc⟩ := ih i1 r1 h t (by simp at hlen ⊢; omega)
            hch1 (List.Chain'.tail hch2)
            hwf1 (fun b hbb => hwf2 b (List.mem_cons_of_mem _ hbb))
          refine ⟨?_, ihc⟩
          intro o ho
          obtain ⟨⟨haex, ⟨b, hbb, hbo⟩⟩, hb1, hb2⟩ := ihm o ho
          exact ⟨⟨haex, ⟨b, List.mem_cons_of_mem _ hbb, hbo⟩⟩, hb1, by omega⟩
      · have hb' : ¬ i1.end_ ≤ i2.start := by rw [is_before_iff] at hb; exact hb
        have ha' : ¬ i2.end_ ≤ i1.start := by rw [is_after_iff] at ha; exact ha
        have hov : i1.overlap i2 =
            some ⟨max i1.start i2.start, min i1.end_ i2.end_⟩ := by
          rw [overlap_eq_some_iff]
          exact ⟨⟨by omega, by omega⟩, rfl⟩
        rw [if_neg hb, if_neg ha, hov]
        dsimp only
        have hmemo :
            ((∃ a ∈ i1 :: r1, a.start ≤ max i1.start i2.start ∧
                min i1.end_ i2.end_ ≤ a.end_) ∧
             (∃ b ∈ i2 :: r2, b.start ≤ max i1.start i2.start ∧
                min i1.end_ i2.end_ ≤ b.end_)) ∧
            i1.start ≤ max i1.start i2.start ∧
            i2.start ≤ max i1.start i2.start :=
          ⟨⟨⟨i1, List.mem_cons_self _ _, le_max_left _ _, min_le_left _ _⟩,
            ⟨i2, List.mem_cons_self _ _, le_max_right _ _, min_le_right _ _⟩⟩,
            le_max_left _ _, le_max_right _ _⟩
        by_cases h1 : i1.end_ = min i1.end_ i2.end_
        · rw [if_pos h1]
          cases r1 with
          | nil =>
            dsimp only
            refine ⟨?_, List.chain'_singleton _⟩
            intro o ho
            rcases List.mem_cons.mp ho with rfl | ho'
            · exact hmemo
            · exact absurd ho' (List.not_mem_nil o)
          | cons h1c t1 =>
            dsimp only
            have hchpair1 : i1.end_ ≤ h1c.start := (List.chain'_cons.mp hch1).1
            by_cases h2 : i2.end_ = min i1.end_ i2.end_
            · rw [if_pos h2]
              cases r2 with
              | nil =>
                dsimp only
                refine ⟨?_, List.chain'_singleton _⟩
                intro o ho
                rcases List.mem_cons.mp ho with rfl | ho'
                · exact hmemo
                · exact absurd ho' (List.not_mem_nil o)
              | cons h2c t2 =>
                dsimp only
                have hchpair2 : i2.end_ ≤ h2c.start := (List.chain'_cons.mp hch2).1
                obtain ⟨ihm, ihc⟩ := ih h1c t1 h2c t2 (by simp at hlen ⊢; omega)
                  (List.Chain'.tail hch1) (List.Chain'.tail hch2)
                  (fun a haa => hwf1 a (List.mem_cons_of_mem _ haa))
                  (fun b hbb => hwf2 b (List.mem_cons_of_mem _ hbb))
                constructor
                · intro o ho
                  rcases List.mem_cons.mp ho with rfl | ho'
                  · exact hmemo
                  · obtain ⟨⟨⟨a, haa, hao⟩, ⟨b, hbb, hbo⟩⟩, hba, hbb2⟩ := ihm o ho'
                    exact ⟨⟨⟨a, List.mem_cons_of_mem _ haa, hao⟩,
                      ⟨b, List.mem_cons_of_mem _ hbb, hbo⟩⟩, by omega, by omega⟩
                · rw [List.chain'_cons']
                  refine ⟨?_, ihc⟩
                  intro x hx
                  obtain ⟨_, hba, _⟩ := ihm x (List.mem_of_mem_head? hx)
                  show min i1.end_ i2.end_ ≤ x.start
                  omega
            · rw [if_neg h2]
              obtain ⟨ihm, ihc⟩ := ih h1c t1 i2 r2 (by simp at hlen ⊢; omega)
                (List.Chain'.tail hch1) hch2
                (fun a haa => hwf1 a (List.mem_cons_of_mem _ haa)) hwf2
              constructor
              · intro o ho
                rcases List.mem_cons.mp ho with rfl | ho'
                · exact hmemo
                · obtain ⟨⟨⟨a, haa, hao⟩, hbex⟩, hba, hbb2⟩ := ihm o ho'
                  exact ⟨⟨⟨a, List.mem_cons_of_mem _ haa, hao⟩, hbex⟩, by omega, hbb2⟩
              · rw [List.chain'_cons']
                refine ⟨?_, ihc⟩
                intro x hx
                obtain ⟨_, hba, _⟩ := ihm x (List.mem_of_mem_head? hx)
                show min i1.end_ i2.end_ ≤ x.start
                omega
        · have h2 : min i1.end_ i2.end_ = i2.end_ := by
            rcases le_total i1.end_ i2.end_ with hle | hle
            · exact absurd (min_eq_left hle).symm h1
            · exact min_eq_right hle
          rw [if_neg h1]
          cases r2 with
          | nil =>
            dsimp only
            refine ⟨?_, List.chain'_singleton _⟩
            intro o ho
            rcases List.mem_cons.mp ho with rfl | ho'
            · exact hmemo
            · exact absurd ho' (List.not_mem_nil o)
          | cons h2c t2 =>
            dsimp only
            have hchpair2 : i2.end_ ≤ h2c.start := (List.chain'_cons.mp hch2).1
            obtain ⟨ihm, ihc⟩ := ih i1 r1 h2c t2 (by simp at hlen ⊢; omega)
              hch1 (List.Chain'.tail hch2)
              hwf1 (fun b hbb => hwf2 b (List.mem_cons_of_mem _ hbb))
            constructor
            · intro o ho
              rcases List.mem_cons.mp ho with rfl | ho'
              · exact hmemo
              · obtain ⟨⟨haex, ⟨b, hbb, hbo⟩⟩, hba, hbb2⟩ := ihm o ho'
                exact ⟨⟨haex, ⟨b, List.mem_cons_of_mem _ hbb, hbo⟩⟩, hba, by omega⟩
            · rw [List.chain'_cons']
              refine ⟨?_, ihc⟩
              intro x hx
              obtain ⟨_, _, hbb2⟩ := ihm x (List.mem_of_mem_head? hx)
              show min i1.end_ i2.end_ ≤ x.start
              omega

/-- Claim C1: on ascending non-overlapping finite inputs, every interval
emitted by `intersection_of_intervals` is contained in some interval of
each input and the emitted sequence is ascending and non-overlapping; and
the concrete scenario `[[0,10),[20,30)] ∩ [[5,25)] = [[5,10),[20,25)]`
holds. -/
theorem C1_intersection_correct :
    (∀ l1 l2 : List DateTimeInterval,
      List.Chain' (fun a b => a.end_ ≤ b.start) l1 →
      List.Chain' (fun a b => a.end_ ≤ b.start) l2 →
      (∀ a ∈ l1, a.WF) → (∀ b ∈ l2, b.WF) →
      (∀ o ∈ intersection_of_intervals l1 l2,
        (∃ a ∈ l1, a.start ≤ o.start ∧ o.end_ ≤ a.end_) ∧
        (∃ b ∈ l2, b.start ≤ o.start ∧ o.end_ ≤ b.end_)) ∧
      List.Chain' (fun a b => a.end_ ≤ b.start) (intersection_of_intervals l1 l2)) ∧
    intersection_of_intervals [⟨0, 10⟩, ⟨20, 30⟩] [⟨5, 25⟩] = [⟨5, 10⟩, ⟨20, 25⟩] := by
  constructor
  · intro l1 l2 hch1 hch2 hwf1 hwf2
    cases l1 with
    | nil =>
      constructor
      · intro o ho
        simp [intersection_of_intervals] at ho
      · simp [intersection_of_intervals]
    | cons i1 r1 =>
      cases l2 with
      | nil =>
        constructor
        · intro o ho
          simp [intersection_of_intervals] at ho
        · simp [intersection_of_intervals]
      | cons i2 r2 =>
        obtain ⟨hm, hc⟩ := interAux_spec (r1.length + r2.length + 1) i1 r1 i2 r2
          (by omega) hch1 hch2 hwf1 hwf2
        exact ⟨fun o ho => (hm o ho).1, hc⟩
  · decide

/-- Claim C1 witness: the general part applied to the concrete scenario
inputs. -/
theorem C1_witness :
    (∀ o ∈ intersection_of_intervals [⟨0, 10⟩, ⟨20, 30⟩] [⟨5, 25⟩],
      (∃ a ∈ [(⟨0, 10⟩ : DateTimeInterval), ⟨20, 30⟩],
        a.start ≤ o.start ∧ o.end_ ≤ a.end_) ∧
      (∃ b ∈ [(⟨5, 25⟩ : DateTimeInterval)],
        b.start ≤ o.start ∧ o.end_ ≤ b.end_)) ∧
    List.Chain' (fun a b => a.end_ ≤ b.start)
      (intersection_of_intervals [⟨0, 10⟩, ⟨20, 30⟩] [⟨5, 25⟩]) :=
  C1_intersection_correct.1 [⟨0, 10⟩, ⟨20, 30⟩] [⟨5, 25⟩]
    (by simp) (by simp) (by decide) (by decide)

/-! Termination of consuming the intersection generator. -/

/-- One-step unfolding of the intersection runner. -/
theorem interRun_succ_def (f : Nat) (st : InterState) :
    interRun (f + 1) st =
      (match interStep st with
       | (out, StepRes.stop) => some (out, false)
       | (out, StepRes.fail) => some (out, true)
       | (out, StepRes.next st') =>
         match interRun f st' with
         | none => none
         | some (l, e) => some (out ++ l, e)) := rfl

/-- With adequate fuel, consuming the generator by the step machine ends
the sequence normally (no assert fires, exhaustion of a stream stops the
generator) and produces exactly the intersection list. -/
theorem interRun_eq :
    ∀ (fuel : Nat) (st : InterState),
      st.r1.length + st.r2.length < fuel →
      interRun fuel st = some (interAux fuel st.i1 st.r1 st.i2 st.r2, false) := by
  intro fuel
  induction fuel with
  | zero =>
    intro st hlen
    exact absurd hlen (by omega)
  | succ f ih =>
    intro st hlen
    obtain ⟨i1, r1, i2, r2⟩ := st
    simp only at hlen
    rw [interRun_succ_def, interAux_succ_def]
    show (match interStep ⟨i1, r1, i2, r2⟩ with
       | (out, StepRes.stop) => some (out, false)
       | (out, StepRes.fail) => some (out, true)
       | (out, StepRes.next st') =>
         match interRun f st' with
         | none => none
         | some (l, e) => some (out ++ l, e)) = _
    unfold interStep
    dsimp only
    by_cases hb : i1.is_before i2 = true
    · rw [if_pos hb, if_pos hb]
      cases r1 with
      | nil => rfl
      | cons h t =>
        dsimp only
        rw [ih ⟨h, t, i2, r2⟩ (by simp at hlen ⊢; omega)]
        rfl
    · by_cases ha : i1.is_after i2 = true
      · rw [if_neg hb, if_neg hb, if_pos ha, if_pos ha]
        cases r2 with
        | nil => rfl
        | cons h t =>
          dsimp only
          rw [ih ⟨i1, r1, h, t⟩ (by simp at hlen ⊢; omega)]
          rfl
      · have hb' : ¬ i1.end_ ≤ i2.start := by rw [is_before_iff] at hb; exact hb
        have ha' : ¬ i2.end_ ≤ i1.start := by rw [is_after_iff] at ha; exact ha
        have hovl : i1.overlaps i2 = true := by rw [overlaps_iff]; omega
        have hov : i1.overlap i2 =
            some ⟨max i1.start i2.start, min i1.end_ i2.end_⟩ := by
          rw [overlap_eq_some_iff]
          exact ⟨⟨by omega, by omega⟩, rfl⟩
        have hminc := min_choice i1.end_ i2.end_
        rw [if_neg hb, if_neg hb, if_neg ha, if_neg ha, hovl]
        rw [if_neg (by simp), hov]
        dsimp only
        rw [if_neg (by rw [not_lt]; exact min_le_left _ _)]
        rw [if_neg (by rw [not_lt]; exact min_le_right _ _)]
        rw [if_neg (by
          rcases hminc with h | h <;> rw [h] <;> omega)]
        rw [if_neg (by
          rcases hminc with h | h
          · exact not_not_intro (Or.inl h.symm)
          · exact not_not_intro (Or.inr h.symm))]
        by_cases h1 : i1.end_ = min i1.end_ i2.end_
        · rw [if_pos h1, if_pos h1]
          cases r1 with
          | nil => rfl
          | cons h1c t1 =>
            dsimp only
            by_cases h2 : i2.end_ = min i1.end_ i2.end_
            · rw [if_pos h2, if_pos h2]
              cases r2 with
              | nil => rfl
              | cons h2c t2 =>
                dsimp only
                rw [ih ⟨h1c, t1, h2c, t2⟩ (by simp at hlen ⊢; omega)]
                rfl
            · rw [if_neg h2, if_neg h2]
              dsimp only
              rw [ih ⟨h1c, t1, i2, r2⟩ (by simp at hlen ⊢; omega)]
              rfl
        · rw [if_neg h1, if_neg h1]
          cases r2 with
          | nil => rfl
          | cons h2c t2 =>
            dsimp only
            rw [ih ⟨i1, r1, h2c, t2⟩ (by simp at hlen ⊢; omega)]
            rfl

/-- Claim C3: consuming the intersection of two finite ascending
non-overlapping sequences terminates normally (as soon as either stream
is exhausted), with no assert failing, and emits exactly the intersection
sequence. -/
theorem C3_intersection_terminates :
    ∀ l1 l2 : List DateTimeInterval,
      List.Chain' (fun a b => a.end_ ≤ b.start) l1 →
      List.Chain' (fun a b => a.end_ ≤ b.start) l2 →
      ∃ fuel, intersectionRun fuel l1 l2 =
        some (intersection_of_intervals l1 l2, false) := by
  intro l1 l2 _ _
  cases l1 with
  | nil => exact ⟨1, by simp [intersectionRun, intersection_of_intervals]⟩
  | cons a t1 =>
    cases l2 with
    | nil => exact ⟨1, by simp [intersectionRun, intersection_of_intervals]⟩
    | cons b t2 =>
      refine ⟨t1.length + t2.length + 1, ?_⟩
      rw [show intersectionRun (t1.length + t2.length + 1) (a :: t1) (b :: t2) =
            interRun (t1.length + t2.length + 1) ⟨a, t1, b, t2⟩ from rfl,
          show intersection_of_intervals (a :: t1) (b :: t2) =
            interAux (t1.length + t2.length + 1) a t1 b t2 from rfl]
      exact interRun_eq (t1.length + t2.length + 1) ⟨a, t1, b, t2⟩ (by simp)

/-- Claim C3 witness: consuming the concrete scenario intersection. -/
theorem C3_witness :
    ∃ fuel, intersectionRun fuel [⟨0, 10⟩, ⟨20, 30⟩] [⟨5, 25⟩] =
      some (intersection_of_intervals [⟨0, 10⟩, ⟨20, 30⟩] [⟨5, 25⟩], false) :=
  C3_intersection_terminates [⟨0, 10⟩, ⟨20, 30⟩] [⟨5, 25⟩] (by simp) (by simp)

/-! Structure of the `_mark` splice loop.

The loop is characterized by a closed form: the segments wholly before
`to_add` are kept; the first remaining segment may contribute a "before"
remainder; `to_add` is inserted once; and each remaining segment is
either kept whole (when it starts at or after `to_add.end`), truncated to
its part after `to_add.end`, or swallowed. -/

/-- Test "this segment lies wholly before `to_add`" (the case-1 test of
the loop). -/
def pb (to_add si : SingleStatusInterval) : Bool :=
  decide (si.interval.end_ ≤ to_add.interval.start)

/-- What the splice loop emits for a segment not wholly before `to_add`,
once `to_add` is placed: kept whole, truncated to the part after
`to_add`, or swallowed. -/
def afterFn (to_add r : SingleStatusInterval) : List SingleStatusInterval :=
  if to_add.interval.end_ ≤ r.interval.start then [r]
  else if to_add.interval.end_ < r.interval.end_ then
    [⟨r.status, ⟨to_add.interval.end_, r.interval.end_⟩⟩]
  else []

/-- The "before" remainder contributed by the first segment not wholly
before `to_add`, when it starts strictly before `to_add`. -/
def beforeOpt (to_add : SingleStatusInterval) :
    List SingleStatusInterval → List SingleStatusInterval
  | [] => []
  | h :: _ =>
    if h.interval.start < to_add.interval.start then
      [⟨h.status, ⟨h.interval.start, to_add.interval.start⟩⟩]
    else []

theorem beforeOpt_nil (ta : SingleStatusInterval) : beforeOpt ta [] = [] := rfl

theorem beforeOpt_cons (ta h : SingleStatusInterval)
    (t : List SingleStatusInterval) :
    beforeOpt ta (h :: t) =
      if h.interval.start < ta.interval.start then
        [⟨h.status, ⟨h.interval.start, ta.interval.start⟩⟩]
      else [] := rfl

/-- One-step unfolding of the splice loop. -/
theorem markLoop_cons (ta si : SingleStatusInterval)
    (rest : List SingleStatusInterval) (did : Bool) :
    markLoop ta (si :: rest) did =
      if ta.interval.is_after si.interval then
        si :: markLoop ta rest did
      else if ta.interval.is_before si.interval then
        (if did then [] else [ta]) ++ si :: markLoop ta rest true
      else
        (match (non_overlapping_intervals si.interval ta.interval).1 with
          | some b => [⟨si.status, b⟩]
          | none => []) ++
        (if did then [] else [ta]) ++
        (match (non_overlapping_intervals si.interval ta.interval).2 with
          | some a => [⟨si.status, a⟩]
          | none => []) ++
        markLoop ta rest true := rfl

/-- After `to_add` has been placed, the rest of the walk emits exactly
`afterFn` of each remaining segment, provided every remaining segment is
well formed and starts strictly after `to_add.start`. -/
theorem markLoop_true_eq (ta : SingleStatusInterval) :
    ∀ l : List SingleStatusInterval,
      (∀ r ∈ l, r.interval.WF ∧ ta.interval.start < r.interval.start) →
      markLoop ta l true = l.flatMap (afterFn ta) := by
  intro l
  induction l with
  | nil => intro _; rfl
  | cons r rest ih =>
    intro hl
    obtain ⟨hrwf, hrs⟩ := hl r (List.mem_cons_self _ _)
    unfold DateTimeInterval.WF at hrwf
    have hrest : ∀ x ∈ rest, x.interval.WF ∧ ta.interval.start < x.interval.start :=
      fun x hx => hl x (List.mem_cons_of_mem _ hx)
    rw [markLoop_cons]
    rw [if_neg (by rw [is_after_iff]; omega)]
    rw [List.flatMap_cons]
    by_cases hbef : ta.interval.is_before r.interval = true
    · rw [if_pos hbef]
      rw [is_before_iff] at hbef
      have hafter : afterFn ta r = [r] := by
        unfold afterFn
        rw [if_pos hbef]
      rw [hafter, ih hrest]
      rfl
    · rw [if_neg hbef]
      rw [is_before_iff] at hbef
      have hb1 : (non_overlapping_intervals r.interval ta.interval).1 = none := by
        unfold non_overlapping_intervals
        dsimp only
        rw [if_neg (by omega)]
      have hafter : (match (non_overlapping_intervals r.interval ta.interval).2 with
          | some a => [⟨r.status, a⟩]
          | none => []) = afterFn ta r := by
        unfold non_overlapping_intervals afterFn
        dsimp only
        rw [if_neg hbef]
        by_cases h : ta.interval.end_ < r.interval.end_
        · rw [if_pos h, if_pos h]
        · rw [if_neg h, if_neg h]
      rw [hb1, ih hrest]
      dsimp only
      rw [← hafter]
      rfl

/-- Closed form ("master equation") of the splice walk on an ascending
well-formed stored list, for well-formed `to_add`. -/
theorem markLoop_false_eq (ta : SingleStatusInterval) :
    ∀ l : List SingleStatusInterval,
      List.Chain' (fun a b => a.interval.end_ ≤ b.interval.start) l →
      (∀ si ∈ l, si.interval.WF) → ta.interval.WF →
      markLoop ta l false =
        l.takeWhile (pb ta) ++
        (beforeOpt ta (l.dropWhile (pb ta)) ++
          ta :: (l.dropWhile (pb ta)).flatMap (afterFn ta)) := by
  intro l
  induction l with
  | nil => intro _ _ _; rfl
  | cons si rest ih =>
    intro hch hwf hta
    have hsiwf : si.interval.start ≤ si.interval.end_ := hwf si (List.mem_cons_self _ _)
    have htawf : ta.interval.start ≤ ta.interval.end_ := hta
    have hreststarts : ∀ r ∈ rest, si.interval.end_ ≤ r.interval.start :=
      ssi_chain_le_starts si rest hch (fun x hx => hwf x (List.mem_cons_of_mem _ hx))
    rw [markLoop_cons, List.takeWhile_cons, List.dropWhile_cons]
    by_cases hpb : si.interval.end_ ≤ ta.interval.start
    · have hpb' : pb ta si = true := by simp [pb]; exact hpb
      rw [if_pos hpb', if_pos hpb']
      rw [if_pos (by rw [is_after_iff]; exact hpb)]
      rw [ih (List.Chain'.tail hch) (fun x hx => hwf x (List.mem_cons_of_mem _ hx)) hta]
      rfl
    · have hpb' : ¬ pb ta si = true := by simp [pb]; omega
      rw [if_neg hpb', if_neg hpb']
      rw [if_neg (by rw [is_after_iff]; omega)]
      have hrest_true : markLoop ta rest true = rest.flatMap (afterFn ta) := by
        apply markLoop_true_eq
        intro r hr
        exact ⟨hwf r (List.mem_cons_of_mem _ hr), by
          have := hreststarts r hr
          omega⟩
      by_cases hbef : ta.interval.end_ ≤ si.interval.start
      · rw [if_pos (by rw [is_before_iff]; exact hbef)]
        have hbo : beforeOpt ta (si :: rest) = [] := by
          unfold beforeOpt
          dsimp only
          rw [if_neg (show ¬ si.interval.start < ta.interval.start from by omega)]
        have hafter : afterFn ta si = [si] := by
          unfold afterFn
          rw [if_pos hbef]
        rw [hbo, List.flatMap_cons, hafter, hrest_true]
        rfl
      · rw [if_neg (by rw [is_before_iff]; omega)]
        have hbo : (match (non_overlapping_intervals si.interval ta.interval).1 with
            | some b => [⟨si.status, b⟩]
            | none => []) = beforeOpt ta (si :: rest) := by
          unfold non_overlapping_intervals beforeOpt
          dsimp only
          by_cases h : si.interval.start < ta.interval.start
          · rw [if_pos h, if_pos h]
          · rw [if_neg h, if_neg h]
        have hafter : (match (non_overlapping_intervals si.interval ta.interval).2 with
            | some a => [⟨si.status, a⟩]
            | none => []) = afterFn ta si := by
          unfold non_overlapping_intervals afterFn
          dsimp only
          by_cases h : ta.interval.end_ < si.interval.end_
          · rw [if_pos h]
            dsimp only
            rw [if_neg (show ¬ ta.interval.end_ ≤ si.interval.start from by omega),
              if_pos h]
          · rw [if_neg h]
            dsimp only
            rw [if_neg (show ¬ ta.interval.end_ ≤ si.interval.start from by omega),
              if_neg h]
        rw [hbo, hrest_true, List.flatMap_cons, ← hafter]
        simp

/-- Case analysis of a single `afterFn` emission. -/
theorem afterFn_mem (ta r x : SingleStatusInterval) (hx : x ∈ afterFn ta r) :
    (x = r ∧ ta.interval.end_ ≤ r.interval.start) ∨
    (x = ⟨r.status, ⟨ta.interval.end_, r.interval.end_⟩⟩ ∧
      ¬ ta.interval.end_ ≤ r.interval.start ∧
      ta.interval.end_ < r.interval.end_) := by
  unfold afterFn at hx
  by_cases h1 : ta.interval.end_ ≤ r.interval.start
  · rw [if_pos h1] at hx
    rcases List.mem_singleton.mp hx with rfl
    exact Or.inl ⟨rfl, h1⟩
  · rw [if_neg h1] at hx
    by_cases h2 : ta.interval.end_ < r.interval.end_
    · rw [if_pos h2] at hx
      rcases List.mem_singleton.mp hx with rfl
      exact Or.inr ⟨rfl, h1, h2⟩
    · rw [if_neg h2] at hx
      exact absurd hx (List.not_mem_nil x)

/-- `afterFn` emits nothing or a single segment with the original
segment's status and end. -/
theorem afterFn_cases (ta r : SingleStatusInterval) :
    afterFn ta r = [] ∨
    ∃ x, afterFn ta r = [x] ∧ x.status = r.status ∧
      x.interval.end_ = r.interval.end_ := by
  unfold afterFn
  by_cases h1 : ta.interval.end_ ≤ r.interval.start
  · rw [if_pos h1]
    exact Or.inr ⟨r, rfl, rfl, rfl⟩
  · rw [if_neg h1]
    by_cases h2 : ta.interval.end_ < r.interval.end_
    · rw [if_pos h2]
      exact Or.inr ⟨_, rfl, rfl, rfl⟩
    · rw [if_neg h2]
      exact Or.inl rfl

/-- Everything emitted by the after-placement walk starts at or after
`to_add.end`. -/
theorem flatMap_afterFn_start (ta : SingleStatusInterval)
    (l : List SingleStatusInterval) (x : SingleStatusInterval)
    (hx : x ∈ l.flatMap (afterFn ta)) :
    ta.interval.end_ ≤ x.interval.start := by
  obtain ⟨r, _, hxr⟩ := List.mem_flatMap.mp hx
  rcases afterFn_mem ta r x hxr with ⟨rfl, h⟩ | ⟨rfl, _, _⟩
  · exact h
  · exact le_refl _

/-- The after-placement walk preserves ascending order. -/
theorem flatMap_afterFn_chain (ta : SingleStatusInterval) :
    ∀ l : List SingleStatusInterval,
      List.Chain' (fun a b => a.interval.end_ ≤ b.interval.start) l →
      (∀ x ∈ l, x.interval.WF) →
      List.Chain' (fun a b => a.interval.end_ ≤ b.interval.start)
        (l.flatMap (afterFn ta)) := by
  intro l
  induction l with
  | nil => intro _ _; exact List.chain'_nil
  | cons r rest ih =>
    intro hch hwf
    rw [List.flatMap_cons]
    have hrest := ih (List.Chain'.tail hch)
      (fun x hx => hwf x (List.mem_cons_of_mem _ hx))
    have hstarts := ssi_chain_le_starts r rest hch
      (fun x hx => hwf x (List.mem_cons_of_mem _ hx))
    rcases afterFn_cases ta r with hemp | ⟨x, hx, hxst, hxe⟩
    · rw [hemp, List.nil_append]
      exact hrest
    · rw [hx]
      rw [List.singleton_append, List.chain'_cons']
      refine ⟨?_, hrest⟩
      intro y hy
      have hym := List.mem_of_mem_head? hy
      obtain ⟨r', hr', hyr'⟩ := List.mem_flatMap.mp hym
      have hr'start : r.interval.end_ ≤ r'.interval.start := hstarts r' hr'
      rcases afterFn_mem ta r' y hyr' with ⟨rfl, h⟩ | ⟨rfl, hns, _⟩
      · omega
      · show x.interval.end_ ≤ ta.interval.end_
        rw [hxe]
        omega

/-- Equation lemmas for the smoothing loop. -/
theorem smoothLoop_nil (acc : SingleStatusInterval) :
    smoothLoop acc [] = [acc] := rfl

theorem smoothLoop_cons (acc si : SingleStatusInterval)
    (rest : List SingleStatusInterval) :
    smoothLoop acc (si :: rest) =
      if acc.status = si.status ∧ acc.interval.end_ = si.interval.start then
        smoothLoop ⟨acc.status, ⟨acc.interval.start, si.interval.end_⟩⟩ rest
      else
        acc :: smoothLoop si rest := rfl

/-- The smoothed output is never empty and starts with the accumulator's
status and start. -/
theorem smoothLoop_shape :
    ∀ (l : List SingleStatusInterval) (acc : SingleStatusInterval),
      ∃ e rest, smoothLoop acc l =
        (⟨acc.status, ⟨acc.interval.start, e⟩⟩ : SingleStatusInterval) :: rest := by
  intro l
  induction l with
  | nil =>
    intro acc
    exact ⟨acc.interval.end_, [], rfl⟩
  | cons si rest ih =>
    intro acc
    rw [smoothLoop_cons]
    by_cases h : acc.status = si.status ∧ acc.interval.end_ = si.interval.start
    · rw [if_pos h]
      obtain ⟨e, r, hr⟩ := ih ⟨acc.status, ⟨acc.interval.start, si.interval.end_⟩⟩
      exact ⟨e, r, hr⟩
    · rw [if_neg h]
      exact ⟨acc.interval.end_, smoothLoop si rest, rfl⟩

/-- The smoothed output never has two adjacent segments sharing a
boundary and an equal status. -/
theorem smoothLoop_noMerge :
    ∀ (l : List SingleStatusInterval) (acc : SingleStatusInterval),
      List.Chain'
        (fun a b => ¬(a.status = b.status ∧ a.interval.end_ = b.interval.start))
        (smoothLoop acc l) := by
  intro l
  induction l with
  | nil => intro acc; exact List.chain'_singleton _
  | cons si rest ih =>
    intro acc
    rw [smoothLoop_cons]
    by_cases h : acc.status = si.status ∧ acc.interval.end_ = si.interval.start
    · rw [if_pos h]
      exact ih _
    · rw [if_neg h]
      rw [List.chain'_cons']
      refine ⟨?_, ih si⟩
      intro y hy
      obtain ⟨e, r, hr⟩ := smoothLoop_shape rest si
      rw [hr] at hy
      simp only [List.head?_cons, Option.mem_def, Option.some.injEq] at hy
      subst hy
      exact h

/-- The smoothing loop preserves ascending order. -/
theorem smoothLoop_chain :
    ∀ (l : List SingleStatusInterval) (acc : SingleStatusInterval),
      List.Chain' (fun a b => a.interval.end_ ≤ b.interval.start) (acc :: l) →
      List.Chain' (fun a b => a.interval.end_ ≤ b.interval.start)
        (smoothLoop acc l) := by
  intro l
  induction l with
  | nil => intro acc _; exact List.chain'_singleton _
  | cons si rest ih =>
    intro acc hch
    rw [smoothLoop_cons]
    rw [List.chain'_cons] at hch
    by_cases h : acc.status = si.status ∧ acc.interval.end_ = si.interval.start
    · rw [if_pos h]
      apply ih
      rw [List.chain'_cons'] at hch ⊢
      obtain ⟨_, hh, hc⟩ := hch
      exact ⟨hh, hc⟩
    · rw [if_neg h]
      rw [List.chain'_cons']
      refine ⟨?_, ih si hch.2⟩
      intro y hy
      obtain ⟨e, r, hr⟩ := smoothLoop_shape rest si
      rw [hr] at hy
      simp only [List.head?_cons, Option.mem_def, Option.some.injEq] at hy
      subst hy
      exact hch.1

/-- The smoothing loop preserves any property that is preserved by
merging two abutting segments. -/
theorem smoothLoop_mem (P : SingleStatusInterval → Prop)
    (hP : ∀ a b, P a → P b → a.interval.end_ = b.interval.start →
      P ⟨a.status, ⟨a.interval.start, b.interval.end_⟩⟩) :
    ∀ (l : List SingleStatusInterval) (acc : SingleStatusInterval),
      P acc → (∀ y ∈ l, P y) → ∀ x ∈ smoothLoop acc l, P x := by
  intro l
  induction l with
  | nil =>
    intro acc hacc _ x hx
    rcases List.mem_singleton.mp hx with rfl
    exact hacc
  | cons si rest ih =>
    intro acc hacc hl x hx
    rw [smoothLoop_cons] at hx
    by_cases h : acc.status = si.status ∧ acc.interval.end_ = si.interval.start
    · rw [if_pos h] at hx
      exact ih _ (hP acc si hacc (hl si (List.mem_cons_self _ _)) h.2)
        (fun y hy => hl y (List.mem_cons_of_mem _ hy)) x hx
    · rw [if_neg h] at hx
      rcases List.mem_cons.mp hx with rfl | hx'
      · exact hacc
      · exact ih si (hl si (List.mem_cons_self _ _))
          (fun y hy => hl y (List.mem_cons_of_mem _ hy)) x hx'

/-- `_smooth_status_intervals` preserves ascending order. -/
theorem smooth_chain (l : List SingleStatusInterval)
    (h : List.Chain' (fun a b => a.interval.end_ ≤ b.interval.start) l) :
    List.Chain' (fun a b => a.interval.end_ ≤ b.interval.start)
      (smooth_status_intervals l) := by
  cases l with
  | nil => exact List.chain'_nil
  | cons si rest => exact smoothLoop_chain rest si h

/-- `_smooth_status_intervals` always yields a maximally merged list. -/
theorem smooth_noMerge (l : List SingleStatusInterval) :
    List.Chain'
      (fun a b => ¬(a.status = b.status ∧ a.interval.end_ = b.interval.start))
      (smooth_status_intervals l) := by
  cases l with
  | nil => exact List.chain'_nil
  | cons si rest => exact smoothLoop_noMerge rest si

/-- `_smooth_status_intervals` preserves merge-stable properties. -/
theorem smooth_mem (P : SingleStatusInterval → Prop)
    (hP : ∀ a b, P a → P b → a.interval.end_ = b.interval.start →
      P ⟨a.status, ⟨a.interval.start, b.interval.end_⟩⟩)
    (l : List SingleStatusInterval) (hl : ∀ y ∈ l, P y) :
    ∀ x ∈ smooth_status_intervals l, P x := by
  cases l with
  | nil => intro x hx; exact absurd hx (List.not_mem_nil x)
  | cons si rest =>
    exact smoothLoop_mem P hP rest si (hl si (List.mem_cons_self _ _))
      (fun y hy => hl y (List.mem_cons_of_mem _ hy))

/-- Per-segment invariant relative to the bounding interval `[lo, hi)`:
inside bounds with strictly positive length. -/
def segOk (lo hi : Int) (x : SingleStatusInterval) : Prop :=
  lo ≤ x.interval.start ∧ x.interval.start < x.interval.end_ ∧
    x.interval.end_ ≤ hi

/-- The splice walk preserves ascending order and the per-segment
invariant. -/
theorem markLoop_false_inv (lo hi : Int) (ta : SingleStatusInterval)
    (l : List SingleStatusInterval)
    (hch : List.Chain' (fun a b => a.interval.end_ ≤ b.interval.start) l)
    (hseg : ∀ x ∈ l, segOk lo hi x)
    (hta : segOk lo hi ta) :
    List.Chain' (fun a b => a.interval.end_ ≤ b.interval.start)
      (markLoop ta l false) ∧
    (∀ x ∈ markLoop ta l false, segOk lo hi x) := by
  obtain ⟨htalo, htapos, htahi⟩ := hta
  have hwf : ∀ x ∈ l, x.interval.WF := fun x hx => le_of_lt (hseg x hx).2.1
  rw [markLoop_false_eq ta l hch hwf (le_of_lt htapos)]
  have hdecomp := List.takeWhile_append_dropWhile (pb ta) l
  have hch' : List.Chain' (fun a b => a.interval.end_ ≤ b.interval.start)
      (l.takeWhile (pb ta) ++ l.dropWhile (pb ta)) := by
    rw [hdecomp]; exact hch
  obtain ⟨hchTW, hchDW, hjunc⟩ := List.chain'_append.mp hch'
  have hmemTW : ∀ x ∈ l.takeWhile (pb ta), x ∈ l := by
    intro x hx
    rw [← hdecomp]
    exact List.mem_append.mpr (Or.inl hx)
  have hmemDW : ∀ x ∈ l.dropWhile (pb ta), x ∈ l := by
    intro x hx
    rw [← hdecomp]
    exact List.mem_append.mpr (Or.inr hx)
  have hwfDW : ∀ x ∈ l.dropWhile (pb ta), x.interval.WF :=
    fun x hx => hwf x (hmemDW x hx)
  have hFMchain := flatMap_afterFn_chain ta (l.dropWhile (pb ta)) hchDW hwfDW
  have hFMmem : ∀ x ∈ (l.dropWhile (pb ta)).flatMap (afterFn ta), segOk lo hi x := by
    intro x hx
    obtain ⟨r, hr, hxr⟩ := List.mem_flatMap.mp hx
    obtain ⟨hrlo, hrpos, hrhi⟩ := hseg r (hmemDW r hr)
    rcases afterFn_mem ta r x hxr with ⟨rfl, _⟩ | ⟨rfl, _, hlt⟩
    · exact ⟨hrlo, hrpos, hrhi⟩
    · exact ⟨by show lo ≤ ta.interval.end_; omega,
        by show ta.interval.end_ < r.interval.end_; omega,
        by show r.interval.end_ ≤ hi; omega⟩
  have hBO : beforeOpt ta (l.dropWhile (pb ta)) = [] ∨
      ∃ h, (l.dropWhile (pb ta)).head? = some h ∧
        h.interval.start < ta.interval.start ∧
        beforeOpt ta (l.dropWhile (pb ta)) =
          [⟨h.status, ⟨h.interval.start, ta.interval.start⟩⟩] := by
    cases hdw : l.dropWhile (pb ta) with
    | nil => exact Or.inl (beforeOpt_nil ta)
    | cons h t =>
      by_cases hh : h.interval.start < ta.interval.start
      · exact Or.inr ⟨h, rfl, hh, by rw [beforeOpt_cons, if_pos hh]⟩
      · exact Or.inl (by rw [beforeOpt_cons, if_neg hh])
  have hchMid : List.Chain' (fun a b => a.interval.end_ ≤ b.interval.start)
      (beforeOpt ta (l.dropWhile (pb ta)) ++
        ta :: (l.dropWhile (pb ta)).flatMap (afterFn ta)) := by
    have hchTail : List.Chain' (fun a b => a.interval.end_ ≤ b.interval.start)
        (ta :: (l.dropWhile (pb ta)).flatMap (afterFn ta)) := by
      rw [List.chain'_cons']
      refine ⟨?_, hFMchain⟩
      intro y hy
      exact flatMap_afterFn_start ta _ y (List.mem_of_mem_head? hy)
    rcases hBO with hbo | ⟨h, _, _, hbo⟩
    · rw [hbo, List.nil_append]
      exact hchTail
    · rw [hbo, List.singleton_append, List.chain'_cons']
      refine ⟨?_, hchTail⟩
      intro y hy
      simp only [List.head?_cons, Option.mem_def, Option.some.injEq] at hy
      subst hy
      exact le_refl _
  constructor
  · rw [List.chain'_append]
    refine ⟨hchTW, hchMid, ?_⟩
    intro x hx y hy
    have hxm : x ∈ l.takeWhile (pb ta) := List.mem_of_mem_getLast? hx
    have hxpb : pb ta x = true := List.mem_takeWhile_imp hxm
    have hxe : x.interval.end_ ≤ ta.interval.start := by
      unfold pb at hxpb
      exact of_decide_eq_true hxpb
    rcases hBO with hbo | ⟨h, hhead, hhs, hbo⟩
    · rw [hbo, List.nil_append, List.head?_cons] at hy
      simp only [Option.mem_def, Option.some.injEq] at hy
      subst hy
      exact hxe
    · rw [hbo, List.singleton_append, List.head?_cons] at hy
      simp only [Option.mem_def, Option.some.injEq] at hy
      subst hy
      show x.interval.end_ ≤ h.interval.start
      exact hjunc x hx h hhead
  · intro x hx
    rcases List.mem_append.mp hx with hx1 | hx2
    · exact hseg x (hmemTW x hx1)
    · rcases List.mem_append.mp hx2 with hxb | hxc
      · rcases hBO with hbo | ⟨h, hhead, hhs, hbo⟩
        · rw [hbo] at hxb
          exact absurd hxb (List.not_mem_nil x)
        · rw [hbo] at hxb
          rcases List.mem_singleton.mp hxb with rfl
          have hhm : h ∈ l.dropWhile (pb ta) := List.mem_of_mem_head? hhead
          obtain ⟨hhlo, _, _⟩ := hseg h (hmemDW h hhm)
          exact ⟨hhlo, by show h.interval.start < ta.interval.start; omega,
            by show ta.interval.start ≤ hi; omega⟩
      · rcases List.mem_cons.mp hxc with rfl | hxf
        · exact ⟨htalo, htapos, htahi⟩
        · exact hFMmem x hxf

/-- The invariant maintained by `MultiStatusInterval` (for positive-length
bounding intervals and marks): ascending, maximally merged, and every
stored segment a positive-length subset of the bounding interval. -/
def InvP (m : MultiStatusInterval) : Prop :=
  List.Chain' (fun a b => a.interval.end_ ≤ b.interval.start) m.intervals ∧
  List.Chain'
    (fun a b => ¬(a.status = b.status ∧ a.interval.end_ = b.interval.start))
    m.intervals ∧
  ∀ x ∈ m.intervals, segOk m.interval.start m.interval.end_ x

/-- `segOk` is stable under merging abutting segments. -/
theorem segOk_merge (lo hi : Int) :
    ∀ a b : SingleStatusInterval, segOk lo hi a → segOk lo hi b →
      a.interval.end_ = b.interval.start →
      segOk lo hi (⟨a.status, ⟨a.interval.start, b.interval.end_⟩⟩ : SingleStatusInterval) := by
  intro a b ⟨ha1, ha2, ha3⟩ ⟨hb1, hb2, hb3⟩ hab
  exact ⟨ha1, by show a.interval.start < b.interval.end_; omega,
    by show b.interval.end_ ≤ hi; omega⟩

/-- `_mark` preserves the invariant when the added segment is a
positive-length subset of the bounding interval. -/
theorem markAdd_invP (m : MultiStatusInterval) (ta : SingleStatusInterval)
    (hm : InvP m) (hta : segOk m.interval.start m.interval.end_ ta) :
    InvP (m.markAdd ta) := by
  obtain ⟨hch, _, hseg⟩ := hm
  obtain ⟨hsp, hmem⟩ := markLoop_false_inv m.interval.start m.interval.end_
    ta m.intervals hch hseg hta
  refine ⟨smooth_chain _ hsp, smooth_noMerge _, ?_⟩
  exact smooth_mem _ (segOk_merge m.interval.start m.interval.end_) _ hmem

/-- `mark` leaves the bounding interval unchanged. -/
theorem markD_interval (m : MultiStatusInterval) (i : DateTimeInterval)
    (s : PyStatus) : (m.markD i s).interval = m.interval := by
  unfold MultiStatusInterval.markD MultiStatusInterval.mark
  by_cases hst : isStrOrBytes s = false
  · rw [if_pos hst]
  · rw [if_neg hst]
    cases m.interval.overlap i with
    | none => rfl
    | some c => rfl

/-- A `mark` statement preserves the invariant for positive-length
bounding intervals and positive-length marked intervals. -/
theorem markD_invP (m : MultiStatusInterval) (i : DateTimeInterval)
    (s : PyStatus) (hm : InvP m)
    (hb : m.interval.start < m.interval.end_)
    (hi : i.start < i.end_) : InvP (m.markD i s) := by
  unfold MultiStatusInterval.markD MultiStatusInterval.mark
  by_cases hst : isStrOrBytes s = false
  · rw [if_pos hst]
    exact hm
  · rw [if_neg hst]
    cases hc : m.interval.overlap i with
    | none => exact hm
    | some c =>
      rw [overlap_eq_some_iff] at hc
      obtain ⟨⟨h1, h2⟩, rfl⟩ := hc
      show InvP (m.markAdd _)
      apply markAdd_invP m _ hm
      refine ⟨le_max_left _ _, ?_, min_le_left _ _⟩
      show max m.interval.start i.start < min m.interval.end_ i.end_
      simp only [lt_min_iff, max_lt_iff]
      omega

/-- A sequence of `mark` statements leaves the bounding interval
unchanged. -/
theorem foldMarks_interval :
    ∀ (ops : List (DateTimeInterval × PyStatus)) (m : MultiStatusInterval),
      (m.foldMarks ops).interval = m.interval := by
  intro ops
  induction ops with
  | nil => intro m; rfl
  | cons op rest ih =>
    intro m
    show ((m.markD op.1 op.2).foldMarks rest).interval = _
    rw [ih, markD_interval]

/-- Every state reached from a fresh `MultiStatusInterval` by `mark`
statements with positive-length intervals satisfies the invariant. -/
theorem foldMarks_invP :
    ∀ (ops : List (DateTimeInterval × PyStatus)) (m : MultiStatusInterval),
      InvP m → m.interval.start < m.interval.end_ →
      (∀ op ∈ ops, (op.1).start < (op.1).end_) →
      InvP (m.foldMarks ops) := by
  intro ops
  induction ops with
  | nil => intro m hm _ _; exact hm
  | cons op rest ih =>
    intro m hm hb hops
    show InvP ((m.markD op.1 op.2).foldMarks rest)
    apply ih
    · exact markD_invP m op.1 op.2 hm hb (hops op (List.mem_cons_self _ _))
    · rw [markD_interval]; exact hb
    · exact fun o ho => hops o (List.mem_cons_of_mem _ ho)

/-- Ascending plus positive length gives strictly increasing starts. -/
theorem chain_strict_of_pos (l : List SingleStatusInterval)
    (hch : List.Chain' (fun a b => a.interval.end_ ≤ b.interval.start) l)
    (hpos : ∀ x ∈ l, x.interval.start < x.interval.end_) :
    List.Chain' (fun a b => a.interval.start < b.interval.start) l := by
  induction l with
  | nil => exact List.chain'_nil
  | cons a rest ih =>
    rw [List.chain'_cons'] at hch ⊢
    refine ⟨?_, ih hch.2 (fun x hx => hpos x (List.mem_cons_of_mem _ hx))⟩
    intro y hy
    have := hch.1 y hy
    have := hpos a (List.mem_cons_self _ _)
    omega

/-- Claim C2 (amended: the bounding interval and every marked interval
must have positive length): after any sequence of such `mark` calls the
stored list is strictly ascending, pairwise non-overlapping, maximally
merged, and every stored segment is a positive-length part of the
bounding interval (it is covered by it). -/
theorem C2_mark_invariants :
    ∀ (bounding : DateTimeInterval) (ops : List (DateTimeInterval × PyStatus)),
      bounding.start < bounding.end_ →
      (∀ op ∈ ops, (op.1).start < (op.1).end_) →
      List.Chain' (fun a b => a.interval.start < b.interval.start)
        ((MultiStatusInterval.mk0 bounding).foldMarks ops).intervals ∧
      List.Pairwise (fun a b => a.interval.overlaps b.interval = false)
        ((MultiStatusInterval.mk0 bounding).foldMarks ops).intervals ∧
      List.Chain'
        (fun a b => ¬(a.status = b.status ∧ a.interval.end_ = b.interval.start))
        ((MultiStatusInterval.mk0 bounding).foldMarks ops).intervals ∧
      ∀ si ∈ ((MultiStatusInterval.mk0 bounding).foldMarks ops).intervals,
        bounding.covers si.interval = true ∧
        si.interval.start < si.interval.end_ := by
  intro bounding ops hb hops
  have hinv0 : InvP (MultiStatusInterval.mk0 bounding) :=
    ⟨List.chain'_nil, List.chain'_nil, fun x hx => absurd hx (List.not_mem_nil x)⟩
  obtain ⟨hch, hnm, hseg⟩ := foldMarks_invP ops (MultiStatusInterval.mk0 bounding)
    hinv0 hb hops
  rw [foldMarks_interval] at hseg
  rw [show (MultiStatusInterval.mk0 bounding).interval = bounding from rfl] at hseg
  have hpos : ∀ x ∈ ((MultiStatusInterval.mk0 bounding).foldMarks ops).intervals,
      x.interval.start < x.interval.end_ := fun x hx => (hseg x hx).2.1
  refine ⟨chain_strict_of_pos _ hch hpos, ?_, hnm, ?_⟩
  · have hp := ssi_chain_pairwise _ hch (fun x hx => le_of_lt (hpos x hx))
    refine hp.imp ?_
    intro a b hab
    simp only [DateTimeInterval.overlaps, Bool.and_eq_false_iff,
      decide_eq_false_iff_not, not_lt]
    exact Or.inl hab
  · intro si hsi
    obtain ⟨h1, h2, h3⟩ := hseg si hsi
    refine ⟨?_, h2⟩
    rw [covers_iff]
    refine ⟨⟨h1, by omega⟩, by omega, h3⟩

/-- Claim C2, counterexample: zero-length intervals are accepted by
`mark`; marking `[5,5)` twice with different statuses stores two
zero-length segments with the same start, so the stored list is not
strictly ascending. -/
theorem C2_counterexample :
    ((MultiStatusInterval.mk0 ⟨0, 100⟩).foldMarks
        [(⟨5, 5⟩, PyStatus.str "A"), (⟨5, 5⟩, PyStatus.str "B")]).intervals =
      [⟨PyStatus.str "A", ⟨5, 5⟩⟩, ⟨PyStatus.str "B", ⟨5, 5⟩⟩] ∧
    ¬ List.Chain' (fun a b => a.interval.start < b.interval.start)
      ((MultiStatusInterval.mk0 ⟨0, 100⟩).foldMarks
        [(⟨5, 5⟩, PyStatus.str "A"), (⟨5, 5⟩, PyStatus.str "B")]).intervals := by
  constructor
  · decide
  · intro hc
    rw [show ((MultiStatusInterval.mk0 ⟨0, 100⟩).foldMarks
        [(⟨5, 5⟩, PyStatus.str "A"), (⟨5, 5⟩, PyStatus.str "B")]).intervals =
      [⟨PyStatus.str "A", ⟨5, 5⟩⟩, ⟨PyStatus.str "B", ⟨5, 5⟩⟩] from by decide] at hc
    rw [List.chain'_cons] at hc
    exact absurd hc.1 (by decide)

/-- Claim C2 witness: the amended theorem applied to the smoothing
scenario (`mark([10,20),"X")` then `mark([20,30),"X")` over `[0,100)`). -/
theorem C2_witness :
    ((0:Int) < 100 ∧
      (∀ op ∈ [((⟨10, 20⟩ : DateTimeInterval), PyStatus.str "X"),
        (⟨20, 30⟩, PyStatus.str "X")], (op.1).start < (op.1).end_)) ∧
    (List.Chain' (fun a b => a.interval.start < b.interval.start)
        ((MultiStatusInterval.mk0 ⟨0, 100⟩).foldMarks
          [(⟨10, 20⟩, PyStatus.str "X"), (⟨20, 30⟩, PyStatus.str "X")]).intervals ∧
      List.Pairwise (fun a b => a.interval.overlaps b.interval = false)
        ((MultiStatusInterval.mk0 ⟨0, 100⟩).foldMarks
          [(⟨10, 20⟩, PyStatus.str "X"), (⟨20, 30⟩, PyStatus.str "X")]).intervals ∧
      List.Chain'
        (fun a b => ¬(a.status = b.status ∧ a.interval.end_ = b.interval.start))
        ((MultiStatusInterval.mk0 ⟨0, 100⟩).foldMarks
          [(⟨10, 20⟩, PyStatus.str "X"), (⟨20, 30⟩, PyStatus.str "X")]).intervals ∧
      ∀ si ∈ ((MultiStatusInterval.mk0 ⟨0, 100⟩).foldMarks
          [(⟨10, 20⟩, PyStatus.str "X"), (⟨20, 30⟩, PyStatus.str "X")]).intervals,
        (⟨0, 100⟩ : DateTimeInterval).covers si.interval = true ∧
        si.interval.start < si.interval.end_) :=
  ⟨⟨by decide, by decide⟩,
    C2_mark_invariants ⟨0, 100⟩
      [(⟨10, 20⟩, PyStatus.str "X"), (⟨20, 30⟩, PyStatus.str "X")]
      (by decide) (by decide)⟩

/-- Claim C10 (amended: both operands positive): `overlap` of two
positive-length intervals, when defined, has positive length; and every
segment stored by positive-length marks on a positive-length bounding
interval has positive length. -/
theorem C10_overlap_positive :
    (∀ x y o : DateTimeInterval, x.start < x.end_ → y.start < y.end_ →
      x.overlap y = some o → o.start < o.end_) ∧
    (∀ (bounding : DateTimeInterval) (ops : List (DateTimeInterval × PyStatus)),
      bounding.start < bounding.end_ →
      (∀ op ∈ ops, (op.1).start < (op.1).end_) →
      ∀ si ∈ ((MultiStatusInterval.mk0 bounding).foldMarks ops).intervals,
        si.interval.start < si.interval.end_) := by
  constructor
  · intro x y o hx hy ho
    rw [overlap_eq_some_iff] at ho
    obtain ⟨⟨h1, h2⟩, rfl⟩ := ho
    show max x.start y.start < min x.end_ y.end_
    simp only [lt_min_iff, max_lt_iff]
    omega
  · intro bounding ops hb hops si hsi
    have hinv0 : InvP (MultiStatusInterval.mk0 bounding) :=
      ⟨List.chain'_nil, List.chain'_nil, fun x hx => absurd hx (List.not_mem_nil x)⟩
    obtain ⟨_, _, hseg⟩ := foldMarks_invP ops (MultiStatusInterval.mk0 bounding)
      hinv0 hb hops
    exact (hseg si hsi).2.1

/-- Claim C10, counterexample: `[0,100).overlap([5,5))` is `[5,5)`, an
interval with zero length. -/
theorem C10_counterexample :
    DateTimeInterval.overlap ⟨0, 100⟩ ⟨5, 5⟩ = some ⟨5, 5⟩ ∧
    ¬ ((⟨5, 5⟩ : DateTimeInterval).start < (⟨5, 5⟩ : DateTimeInterval).end_) := by
  decide

/-- Claim C10 witness: the amended theorem at `[0,10)`, `[5,15)` with
overlap `[5,10)`. -/
theorem C10_witness :
    ((0:Int) < 10 ∧ (5:Int) < 15) ∧
    (⟨5, 10⟩ : DateTimeInterval).start < (⟨5, 10⟩ : DateTimeInterval).end_ :=
  ⟨⟨by decide, by decide⟩,
    C10_overlap_positive.1 ⟨0, 10⟩ ⟨5, 15⟩ ⟨5, 10⟩ (by decide) (by decide) (by decide)⟩

/-! Machinery for the idempotence of `mark`. -/

/-- Abutting with equal status: the merge condition of the smoothing
pass. -/
def mg (a b : SingleStatusInterval) : Prop :=
  a.status = b.status ∧ a.interval.end_ = b.interval.start

/-- A segment swallowed by the walk lies inside `(-inf, to_add.end)`. -/
theorem afterFn_eq_nil (ta r : SingleStatusInterval)
    (h : afterFn ta r = []) :
    r.interval.start < ta.interval.end_ ∧ r.interval.end_ ≤ ta.interval.end_ := by
  unfold afterFn at h
  by_cases h1 : ta.interval.end_ ≤ r.interval.start
  · rw [if_pos h1] at h
    exact absurd h (by simp)
  · rw [if_neg h1] at h
    by_cases h2 : ta.interval.end_ < r.interval.end_
    · rw [if_pos h2] at h
      exact absurd h (by simp)
    · exact ⟨by omega, by omega⟩

/-- When every segment already starts at or after `to_add.end`, the
after-placement walk keeps them unchanged. -/
theorem flatMap_afterFn_id (ta : SingleStatusInterval) :
    ∀ l : List SingleStatusInterval,
      (∀ r ∈ l, ta.interval.end_ ≤ r.interval.start) →
      l.flatMap (afterFn ta) = l := by
  intro l
  induction l with
  | nil => intro _; rfl
  | cons r rest ih =>
    intro hl
    rw [List.flatMap_cons]
    have : afterFn ta r = [r] := by
      unfold afterFn
      rw [if_pos (hl r (List.mem_cons_self _ _))]
    rw [this, ih (fun x hx => hl x (List.mem_cons_of_mem _ hx))]
    rfl

/-- Splitting a list at a point where the predicate flips. -/
theorem takeWhile_dropWhile_of_append (p : SingleStatusInterval → Bool)
    (A B : List SingleStatusInterval)
    (hA : ∀ x ∈ A, p x = true) (hB : ∀ y ∈ B.head?, p y = false) :
    (A ++ B).takeWhile p = A ∧ (A ++ B).dropWhile p = B := by
  induction A with
  | nil =>
    simp only [List.nil_append]
    cases B with
    | nil => exact ⟨rfl, rfl⟩
    | cons b B' =>
      have hb : p b = false := hB b rfl
      rw [List.takeWhile_cons, List.dropWhile_cons, hb]
      exact ⟨by simp, by simp⟩
  | cons a A' ih =>
    have ha : p a = true := hA a (List.mem_cons_self _ _)
    obtain ⟨ih1, ih2⟩ := ih (fun x hx => hA x (List.mem_cons_of_mem _ hx))
    rw [List.cons_append, List.takeWhile_cons, List.dropWhile_cons, ha]
    exact ⟨by simp [ih1], by simp [ih2]⟩

/-- Every segment surviving the leading `takeWhile` split ends strictly
after `to_add.start` (under ascending order and well-formedness). -/
theorem dropWhile_pb_ends (ta : SingleStatusInterval)
    (l : List SingleStatusInterval)
    (hch : List.Chain' (fun a b => a.interval.end_ ≤ b.interval.start) l)
    (hwf : ∀ x ∈ l, x.interval.WF) :
    ∀ r ∈ l.dropWhile (pb ta), ta.interval.start < r.interval.end_ := by
  have hdecomp := List.takeWhile_append_dropWhile (pb ta) l
  have hch' : List.Chain' (fun a b => a.interval.end_ ≤ b.interval.start)
      (l.takeWhile (pb ta) ++ l.dropWhile (pb ta)) := by
    rw [hdecomp]; exact hch
  obtain ⟨_, hchDW, _⟩ := List.chain'_append.mp hch'
  have hwfDW : ∀ x ∈ l.dropWhile (pb ta), x.interval.WF := by
    intro x hx
    apply hwf
    rw [← hdecomp]
    exact List.mem_append.mpr (Or.inr hx)
  intro r hr
  cases hdw : l.dropWhile (pb ta) with
  | nil => rw [hdw] at hr; exact absurd hr (List.not_mem_nil r)
  | cons h t =>
    have hh : pb ta h = false := by
      have := List.head?_dropWhile_not (pb ta) l
      rw [hdw] at this
      exact this
    have hhe : ta.interval.start < h.interval.end_ := by
      unfold pb at hh
      rw [decide_eq_false_iff_not] at hh
      omega
    rw [hdw] at hr hchDW
    rcases List.mem_cons.mp hr with rfl | hr'
    · exact hhe
    · have hs := ssi_chain_le_starts h t hchDW
        (fun x hx => hwfDW x (by rw [hdw]; exact List.mem_cons_of_mem _ hx)) r hr'
      have hrwf : r.interval.WF := hwfDW r (by rw [hdw]; exact List.mem_cons_of_mem _ hr')
      unfold DateTimeInterval.WF at hrwf
      omega

/-- The after-placement walk never creates a mergeable adjacent pair. -/
theorem flatMap_afterFn_noMerge (ta : SingleStatusInterval) :
    ∀ l : List SingleStatusInterval,
      List.Chain' (fun a b => a.interval.end_ ≤ b.interval.start) l →
      List.Chain' (fun a b => ¬ mg a b) l →
      (∀ x ∈ l, x.interval.WF) →
      List.Chain' (fun a b => ¬ mg a b) (l.flatMap (afterFn ta)) := by
  intro l
  induction l with
  | nil => intro _ _ _; exact List.chain'_nil
  | cons r rest ih =>
    intro hch hnm hwf
    rw [List.flatMap_cons]
    have hrec := ih (List.Chain'.tail hch) (List.Chain'.tail hnm)
      (fun x hx => hwf x (List.mem_cons_of_mem _ hx))
    rcases afterFn_cases ta r with hemp | ⟨x, hx, hxst, hxe⟩
    · rw [hemp, List.nil_append]
      exact hrec
    · rw [hx, List.singleton_append, List.chain'_cons']
      refine ⟨?_, hrec⟩
      intro y hy
      cases rest with
      | nil => simp at hy
      | cons r0 rest' =>
        have hr0r : r.interval.end_ ≤ r0.interval.start := (List.chain'_cons.mp hch).1
        have hnm0 : ¬ mg r r0 := (List.chain'_cons.mp hnm).1
        rw [List.flatMap_cons] at hy
        rcases afterFn_cases ta r0 with hemp0 | ⟨x0, hx0, hx0st, hx0e⟩
        · -- r0 is swallowed: everything later starts at or after to_add.end,
          -- strictly after r0.start >= r.end
          obtain ⟨hr0s, _⟩ := afterFn_eq_nil ta r0 hemp0
          rw [hemp0, List.nil_append] at hy
          have hym := List.mem_of_mem_head? hy
          have hys := flatMap_afterFn_start ta rest' y hym
          intro hmgxy
          obtain ⟨_, hxy⟩ := hmgxy
          rw [hxe] at hxy
          omega
        · rw [hx0, List.singleton_append] at hy
          simp only [List.head?_cons, Option.mem_def, Option.some.injEq] at hy
          subst hy
          rcases afterFn_mem ta r0 x0 (by rw [hx0]; exact List.mem_singleton.mpr rfl)
            with ⟨rfl, hk⟩ | ⟨rfl, hns, _⟩
          · intro hmgxy
            obtain ⟨hst, hxy⟩ := hmgxy
            rw [hxe] at hxy
            rw [hxst] at hst
            exact hnm0 ⟨hst, hxy⟩
          · intro hmgxy
            obtain ⟨_, hxy⟩ := hmgxy
            rw [hxe] at hxy
            show False
            dsimp only at hxy
            omega

theorem smooth_cons (a : SingleStatusInterval) (l : List SingleStatusInterval) :
    smooth_status_intervals (a :: l) = smoothLoop a l := rfl

/-- A maximally merged list is a fixed point of the smoothing loop. -/
theorem smoothLoop_eq_self :
    ∀ (l : List SingleStatusInterval) (acc : SingleStatusInterval),
      List.Chain' (fun a b => ¬ mg a b) (acc :: l) →
      smoothLoop acc l = acc :: l := by
  intro l
  induction l with
  | nil => intro acc _; rfl
  | cons si rest ih =>
    intro acc hch
    obtain ⟨h1, h2⟩ := List.chain'_cons.mp hch
    rw [smoothLoop_cons,
      if_neg (show ¬(acc.status = si.status ∧
        acc.interval.end_ = si.interval.start) from h1),
      ih si h2]

/-- A maximally merged list is a fixed point of `_smooth_status_intervals`. -/
theorem smooth_of_noMerge (l : List SingleStatusInterval)
    (h : List.Chain' (fun a b => ¬ mg a b) l) :
    smooth_status_intervals l = l := by
  cases l with
  | nil => rfl
  | cons a t => exact smoothLoop_eq_self t a h

/-- The smoothing loop distributes over a junction at which no merge can
happen. -/
theorem smoothLoop_append_break :
    ∀ (X : List SingleStatusInterval) (acc y : SingleStatusInterval)
      (Y : List SingleStatusInterval),
      (∀ z ∈ (acc :: X).getLast?, ¬ mg z y) →
      smoothLoop acc (X ++ y :: Y) = smoothLoop acc X ++ smoothLoop y Y := by
  intro X
  induction X with
  | nil =>
    intro acc y Y h
    have hne : ¬ mg acc y := h acc rfl
    rw [List.nil_append, smoothLoop_cons,
      if_neg (show ¬(acc.status = y.status ∧
        acc.interval.end_ = y.interval.start) from hne),
      smoothLoop_nil, List.singleton_append]
  | cons x X' ih =>
    intro acc y Y h
    rw [List.cons_append, smoothLoop_cons, smoothLoop_cons]
    by_cases hm : acc.status = x.status ∧ acc.interval.end_ = x.interval.start
    · rw [if_pos hm, if_pos hm]
      apply ih
      intro z hz
      cases X' with
      | nil =>
        simp only [List.getLast?_singleton, Option.mem_def,
          Option.some.injEq] at hz
        subst hz
        have hx : ¬ mg x y := h x rfl
        intro hc
        exact hx ⟨by rw [← hm.1]; exact hc.1, hc.2⟩
      | cons x' X'' =>
        rw [List.getLast?_cons_cons] at hz
        apply h
        rw [List.getLast?_cons_cons, List.getLast?_cons_cons]
        exact hz
    · rw [if_neg hm, if_neg hm]
      rw [ih x y Y (by intro z hz; apply h; rw [List.getLast?_cons_cons]; exact hz)]
      rfl

/-- Core single-merge computation: the smoothing loop started at a segment
that merges with the next, over an already merged tail. -/
theorem smoothLoop_merge_head (p ta : SingleStatusInterval)
    (FMl : List SingleStatusInterval)
    (hF : List.Chain' (fun a b => ¬ mg a b) FMl)
    (hmg : mg p ta) (hnr : ∀ y ∈ FMl.head?, ¬ mg ta y) :
    smoothLoop p (ta :: FMl) =
      (⟨p.status, ⟨p.interval.start, ta.interval.end_⟩⟩ :
        SingleStatusInterval) :: FMl := by
  rw [smoothLoop_cons, if_pos (show p.status = ta.status ∧
    p.interval.end_ = ta.interval.start from hmg)]
  apply smoothLoop_eq_self
  rw [List.chain'_cons']
  refine ⟨?_, hF⟩
  intro y hy
  intro hc
  exact hnr y hy ⟨by rw [← hmg.1]; exact hc.1, hc.2⟩

/-- Smoothing a spliced list whose only mergeable junction is on the left
of the inserted segment. -/
theorem smooth_merge_left (Pl : List SingleStatusInterval)
    (p ta : SingleStatusInterval) (FMl : List SingleStatusInterval)
    (hP : List.Chain' (fun a b => ¬ mg a b) (Pl ++ [p]))
    (hF : List.Chain' (fun a b => ¬ mg a b) FMl)
    (hmg : mg p ta) (hnr : ∀ y ∈ FMl.head?, ¬ mg ta y) :
    smooth_status_intervals ((Pl ++ [p]) ++ ta :: FMl) =
      Pl ++ (⟨p.status, ⟨p.interval.start, ta.interval.end_⟩⟩ :
        SingleStatusInterval) :: FMl := by
  cases Pl with
  | nil =>
    rw [List.nil_append, List.singleton_append, smooth_cons]
    rw [smoothLoop_merge_head p ta FMl hF hmg hnr]
    rfl
  | cons p0 P'' =>
    have hL : ((p0 :: P'') ++ [p]) ++ ta :: FMl =
        p0 :: (P'' ++ p :: (ta :: FMl)) := by simp
    rw [hL, smooth_cons]
    obtain ⟨hP1, _, hPj⟩ := List.chain'_append.mp hP
    rw [smoothLoop_append_break P'' p0 p (ta :: FMl)
      (by intro z hz; exact hPj z hz p rfl)]
    rw [smoothLoop_eq_self P'' p0 hP1,
      smoothLoop_merge_head p ta FMl hF hmg hnr]

/-- Smoothing a spliced list whose only mergeable junction is on the right
of the inserted segment. -/
theorem smooth_merge_right (Pl : List SingleStatusInterval)
    (ta y : SingleStatusInterval) (FM' : List SingleStatusInterval)
    (hP : List.Chain' (fun a b => ¬ mg a b) Pl)
    (hF : List.Chain' (fun a b => ¬ mg a b) (y :: FM'))
    (hnl : ∀ x ∈ Pl.getLast?, ¬ mg x ta) (hmg : mg ta y) :
    smooth_status_intervals (Pl ++ ta :: y :: FM') =
      Pl ++ (⟨ta.status, ⟨ta.interval.start, y.interval.end_⟩⟩ :
        SingleStatusInterval) :: FM' := by
  obtain ⟨hFh, hFt⟩ := List.chain'_cons'.mp hF
  have hcore : smoothLoop ta (y :: FM') =
      (⟨ta.status, ⟨ta.interval.start, y.interval.end_⟩⟩ :
        SingleStatusInterval) :: FM' :=
    smoothLoop_merge_head ta y FM' hFt hmg hFh
  cases Pl with
  | nil =>
    rw [List.nil_append, smooth_cons, hcore]
    rfl
  | cons p0 P'' =>
    rw [List.cons_append, smooth_cons]
    rw [smoothLoop_append_break P'' p0 ta (y :: FM') hnl]
    rw [smoothLoop_eq_self P'' p0 hP, hcore]

/-- Smoothing a spliced list with mergeable junctions on both sides of the
inserted segment. -/
theorem smooth_merge_both (Pl : List SingleStatusInterval)
    (p ta y : SingleStatusInterval) (FM' : List SingleStatusInterval)
    (hP : List.Chain' (fun a b => ¬ mg a b) (Pl ++ [p]))
    (hF : List.Chain' (fun a b => ¬ mg a b) (y :: FM'))
    (hmgl : mg p ta) (hmgr : mg ta y) :
    smooth_status_intervals ((Pl ++ [p]) ++ ta :: y :: FM') =
      Pl ++ (⟨p.status, ⟨p.interval.start, y.interval.end_⟩⟩ :
        SingleStatusInterval) :: FM' := by
  obtain ⟨hFh, hFt⟩ := List.chain'_cons'.mp hF
  have hcore : smoothLoop p (ta :: y :: FM') =
      (⟨p.status, ⟨p.interval.start, y.interval.end_⟩⟩ :
        SingleStatusInterval) :: FM' := by
    rw [smoothLoop_cons, if_pos (show p.status = ta.status ∧
      p.interval.end_ = ta.interval.start from hmgl), smoothLoop_cons]
    rw [if_pos (show p.status = y.status ∧ ta.interval.end_ = y.interval.start from
      ⟨by rw [hmgl.1, hmgr.1], hmgr.2⟩)]
    apply smoothLoop_eq_self
    rw [List.chain'_cons']
    refine ⟨?_, hFt⟩
    intro z hz hc
    exact hFh z hz ⟨by rw [← hmgr.1, ← hmgl.1]; exact hc.1, hc.2⟩
  cases Pl with
  | nil =>
    rw [List.nil_append, List.singleton_append, smooth_cons, hcore]
    rfl
  | cons p0 P'' =>
    have hL : ((p0 :: P'') ++ [p]) ++ ta :: y :: FM' =
        p0 :: (P'' ++ p :: (ta :: y :: FM')) := by simp
    rw [hL, smooth_cons]
    obtain ⟨hP1, _, hPj⟩ := List.chain'_append.mp hP
    rw [smoothLoop_append_break P'' p0 p (ta :: y :: FM')
      (by intro z hz; exact hPj z hz p rfl)]
    rw [smoothLoop_eq_self P'' p0 hP1, hcore]

theorem pb_true_iff (ta x : SingleStatusInterval) :
    pb ta x = true ↔ x.interval.end_ ≤ ta.interval.start := by
  unfold pb
  exact decide_eq_true_iff

theorem pb_false_iff (ta x : SingleStatusInterval) :
    pb ta x = false ↔ ta.interval.start < x.interval.end_ := by
  unfold pb
  rw [decide_eq_false_iff_not]
  omega

/-- The splice walk preserves ascending order, assuming only
well-formedness of the segments involved. -/
theorem markLoop_false_chain (ta : SingleStatusInterval)
    (l : List SingleStatusInterval)
    (hch : List.Chain' (fun a b => a.interval.end_ ≤ b.interval.start) l)
    (hwf : ∀ x ∈ l, x.interval.WF) (hta : ta.interval.WF) :
    List.Chain' (fun a b => a.interval.end_ ≤ b.interval.start)
      (markLoop ta l false) := by
  rw [markLoop_false_eq ta l hch hwf hta]
  have hdecomp := List.takeWhile_append_dropWhile (pb ta) l
  have hch' : List.Chain' (fun a b => a.interval.end_ ≤ b.interval.start)
      (l.takeWhile (pb ta) ++ l.dropWhile (pb ta)) := by
    rw [hdecomp]; exact hch
  obtain ⟨hchTW, hchDW, hjunc⟩ := List.chain'_append.mp hch'
  have hwfDW : ∀ x ∈ l.dropWhile (pb ta), x.interval.WF := by
    intro x hx
    apply hwf
    rw [← hdecomp]
    exact List.mem_append.mpr (Or.inr hx)
  have hFMchain := flatMap_afterFn_chain ta (l.dropWhile (pb ta)) hchDW hwfDW
  have hchTail : List.Chain' (fun a b => a.interval.end_ ≤ b.interval.start)
      (ta :: (l.dropWhile (pb ta)).flatMap (afterFn ta)) := by
    rw [List.chain'_cons']
    refine ⟨?_, hFMchain⟩
    intro y hy
    exact flatMap_afterFn_start ta _ y (List.mem_of_mem_head? hy)
  have hBO : beforeOpt ta (l.dropWhile (pb ta)) = [] ∨
      ∃ h, (l.dropWhile (pb ta)).head? = some h ∧
        h.interval.start < ta.interval.start ∧
        beforeOpt ta (l.dropWhile (pb ta)) =
          [⟨h.status, ⟨h.interval.start, ta.interval.start⟩⟩] := by
    cases hdw : l.dropWhile (pb ta) with
    | nil => exact Or.inl (beforeOpt_nil ta)
    | cons h t =>
      by_cases hh : h.interval.start < ta.interval.start
      · exact Or.inr ⟨h, rfl, hh, by rw [beforeOpt_cons, if_pos hh]⟩
      · exact Or.inl (by rw [beforeOpt_cons, if_neg hh])
  have hchMid : List.Chain' (fun a b => a.interval.end_ ≤ b.interval.start)
      (beforeOpt ta (l.dropWhile (pb ta)) ++
        ta :: (l.dropWhile (pb ta)).flatMap (afterFn ta)) := by
    rcases hBO with hbo | ⟨h, _, _, hbo⟩
    · rw [hbo, List.nil_append]
      exact hchTail
    · rw [hbo, List.singleton_append, List.chain'_cons']
      refine ⟨?_, hchTail⟩
      intro y hy
      simp only [List.head?_cons, Option.mem_def, Option.some.injEq] at hy
      subst hy
      exact le_refl _
  rw [List.chain'_append]
  refine ⟨hchTW, hchMid, ?_⟩
  intro x hx y hy
  have hxm : x ∈ l.takeWhile (pb ta) := List.mem_of_mem_getLast? hx
  have hxpb : pb ta x = true := List.mem_takeWhile_imp hxm
  have hxe : x.interval.end_ ≤ ta.interval.start := (pb_true_iff ta x).mp hxpb
  rcases hBO with hbo | ⟨h, hhead, hhs, hbo⟩
  · rw [hbo, List.nil_append, List.head?_cons] at hy
    simp only [Option.mem_def, Option.some.injEq] at hy
    subst hy
    exact hxe
  · rw [hbo, List.singleton_append, List.head?_cons] at hy
    simp only [Option.mem_def, Option.some.injEq] at hy
    subst hy
    show x.interval.end_ ≤ h.interval.start
    exact hjunc x hx h hhead

/-- The splice walk emits only well-formed segments. -/
theorem markLoop_false_wf (ta : SingleStatusInterval)
    (l : List SingleStatusInterval)
    (hch : List.Chain' (fun a b => a.interval.end_ ≤ b.interval.start) l)
    (hwf : ∀ x ∈ l, x.interval.WF) (hta : ta.interval.WF) :
    ∀ x ∈ markLoop ta l false, x.interval.WF := by
  rw [markLoop_false_eq ta l hch hwf hta]
  have hdecomp := List.takeWhile_append_dropWhile (pb ta) l
  have hmemTW : ∀ x ∈ l.takeWhile (pb ta), x ∈ l := by
    intro x hx
    rw [← hdecomp]
    exact List.mem_append.mpr (Or.inl hx)
  have hmemDW : ∀ x ∈ l.dropWhile (pb ta), x ∈ l := by
    intro x hx
    rw [← hdecomp]
    exact List.mem_append.mpr (Or.inr hx)
  intro x hx
  rcases List.mem_append.mp hx with hx1 | hx2
  · exact hwf x (hmemTW x hx1)
  · rcases List.mem_append.mp hx2 with hxb | hxc
    · cases hdw : l.dropWhile (pb ta) with
      | nil =>
        rw [hdw, beforeOpt_nil] at hxb
        exact absurd hxb (List.not_mem_nil x)
      | cons h t =>
        rw [hdw, beforeOpt_cons] at hxb
        by_cases hh : h.interval.start < ta.interval.start
        · rw [if_pos hh] at hxb
          rcases List.mem_singleton.mp hxb with rfl
          show h.interval.start ≤ ta.interval.start
          omega
        · rw [if_neg hh] at hxb
          exact absurd hxb (List.not_mem_nil x)
    · rcases List.mem_cons.mp hxc with rfl | hxf
      · exact hta
      · obtain ⟨r, hr, hxr⟩ := List.mem_flatMap.mp hxf
        have hrwf : r.interval.WF := hwf r (hmemDW r hr)
        rcases afterFn_mem ta r x hxr with ⟨rfl, _⟩ | ⟨rfl, _, hlt⟩
        · exact hrwf
        · show ta.interval.end_ ≤ r.interval.end_
          omega

/-- Re-splicing `to_add` into a smoothed state where it merged with
neither neighbour reproduces the state. -/
theorem splice_smooth_fix_nn (ta : SingleStatusInterval)
    (P0 FM : List SingleStatusInterval)
    (hP0pb : ∀ x ∈ P0, pb ta x = true)
    (hP0nm : List.Chain' (fun a b => ¬ mg a b) P0)
    (hFMnm : List.Chain' (fun a b => ¬ mg a b) FM)
    (hFMs : ∀ y ∈ FM, ta.interval.end_ ≤ y.interval.start)
    (hFMe : ∀ y ∈ FM, ta.interval.start < y.interval.end_)
    (hnl : ∀ x ∈ P0.getLast?, ¬ mg x ta)
    (hnr : ∀ y ∈ FM.head?, ¬ mg ta y)
    (hta : ta.interval.WF)
    (hchL : List.Chain' (fun a b => a.interval.end_ ≤ b.interval.start)
      (P0 ++ ta :: FM))
    (hwfL : ∀ x ∈ P0 ++ ta :: FM, x.interval.WF) :
    smooth_status_intervals (markLoop ta (P0 ++ ta :: FM) false) =
      P0 ++ ta :: FM := by
  have htaw : ta.interval.start ≤ ta.interval.end_ := hta
  rw [markLoop_false_eq ta _ hchL hwfL hta]
  by_cases hpos : ta.interval.start < ta.interval.end_
  · obtain ⟨htw, hdw⟩ := takeWhile_dropWhile_of_append (pb ta) P0 (ta :: FM)
      hP0pb (by
        intro y hy
        simp only [List.head?_cons, Option.mem_def, Option.some.injEq] at hy
        subst hy
        rw [pb_false_iff]
        exact hpos)
    rw [htw, hdw, beforeOpt_cons, if_neg (lt_irrefl ta.interval.start),
      List.flatMap_cons]
    have hta0 : afterFn ta ta = [] := by
      unfold afterFn
      rw [if_neg (by omega), if_neg (lt_irrefl ta.interval.end_)]
    rw [hta0, flatMap_afterFn_id ta FM hFMs]
    simp only [List.nil_append]
    apply smooth_of_noMerge
    rw [List.chain'_append]
    refine ⟨hP0nm, List.chain'_cons'.mpr ⟨hnr, hFMnm⟩, ?_⟩
    intro x hx y hy
    simp only [List.head?_cons, Option.mem_def, Option.some.injEq] at hy
    subst hy
    exact hnl x hx
  · have hE : ta.interval.end_ = ta.interval.start := by omega
    have hre : P0 ++ ta :: FM = (P0 ++ [ta]) ++ FM := by simp
    rw [hre]
    obtain ⟨htw, hdw⟩ := takeWhile_dropWhile_of_append (pb ta) (P0 ++ [ta]) FM
      (by
        intro x hx
        rcases List.mem_append.mp hx with hx1 | hx2
        · exact hP0pb x hx1
        · rcases List.mem_singleton.mp hx2 with rfl
          rw [pb_true_iff]
          omega)
      (by
        intro y hy
        rw [pb_false_iff]
        exact hFMe y (List.mem_of_mem_head? hy))
    rw [htw, hdw]
    have hbo : beforeOpt ta FM = [] := by
      cases hfm : FM with
      | nil => exact beforeOpt_nil ta
      | cons y FM' =>
        rw [beforeOpt_cons]
        have := hFMs y (by rw [hfm]; exact List.mem_cons_self _ _)
        rw [if_neg (by omega)]
    rw [hbo, List.nil_append, flatMap_afterFn_id ta FM hFMs]
    rw [smooth_merge_left P0 ta ta FM
      (by
        rw [List.chain'_append]
        refine ⟨hP0nm, List.chain'_singleton _, ?_⟩
        intro x hx y hy
        simp only [List.head?_cons, Option.mem_def, Option.some.injEq] at hy
        subst hy
        exact hnl x hx)
      hFMnm ⟨rfl, hE⟩ hnr]
    simp

/-- Re-splicing `to_add` into a smoothed state where it merged with its
left neighbour only reproduces the state. -/
theorem splice_smooth_fix_ln (ta p : SingleStatusInterval)
    (P0' FM : List SingleStatusInterval)
    (hP0pb : ∀ x ∈ P0' ++ [p], pb ta x = true)
    (hP0nm : List.Chain' (fun a b => ¬ mg a b) (P0' ++ [p]))
    (hFMnm : List.Chain' (fun a b => ¬ mg a b) FM)
    (hFMs : ∀ y ∈ FM, ta.interval.end_ ≤ y.interval.start)
    (hFMe : ∀ y ∈ FM, ta.interval.start < y.interval.end_)
    (hml : mg p ta)
    (hnr : ∀ y ∈ FM.head?, ¬ mg ta y)
    (hwfp : p.interval.WF) (hta : ta.interval.WF)
    (hchL : List.Chain' (fun a b => a.interval.end_ ≤ b.interval.start)
      (P0' ++ (⟨p.status, ⟨p.interval.start, ta.interval.end_⟩⟩ :
        SingleStatusInterval) :: FM))
    (hwfL : ∀ x ∈ P0' ++ (⟨p.status, ⟨p.interval.start, ta.interval.end_⟩⟩ :
        SingleStatusInterval) :: FM, x.interval.WF) :
    smooth_status_intervals (markLoop ta
        (P0' ++ (⟨p.status, ⟨p.interval.start, ta.interval.end_⟩⟩ :
          SingleStatusInterval) :: FM) false) =
      P0' ++ (⟨p.status, ⟨p.interval.start, ta.interval.end_⟩⟩ :
        SingleStatusInterval) :: FM := by
  have htaw : ta.interval.start ≤ ta.interval.end_ := hta
  have hpw : p.interval.start ≤ p.interval.end_ := hwfp
  have hpe : p.interval.end_ = ta.interval.start := hml.2
  have hP0'nm : List.Chain' (fun a b => ¬ mg a b) P0' :=
    (List.chain'_append.mp hP0nm).1
  have hjP : ∀ x ∈ P0'.getLast?, ¬ mg x p :=
    fun x hx => (List.chain'_append.mp hP0nm).2.2 x hx p rfl
  rw [markLoop_false_eq ta _ hchL hwfL hta]
  by_cases hpos : ta.interval.start < ta.interval.end_
  · obtain ⟨htw, hdw⟩ := takeWhile_dropWhile_of_append (pb ta) P0'
      ((⟨p.status, ⟨p.interval.start, ta.interval.end_⟩⟩ :
        SingleStatusInterval) :: FM)
      (fun x hx => hP0pb x (List.mem_append_left _ hx))
      (by
        intro y hy
        simp only [List.head?_cons, Option.mem_def, Option.some.injEq] at hy
        subst hy
        rw [pb_false_iff]
        exact hpos)
    rw [htw, hdw]
    have haf : afterFn ta (⟨p.status, ⟨p.interval.start, ta.interval.end_⟩⟩ :
        SingleStatusInterval) = [] := by
      unfold afterFn
      rw [if_neg (show ¬ ta.interval.end_ ≤ p.interval.start by omega),
        if_neg (show ¬ ta.interval.end_ < ta.interval.end_ from lt_irrefl _)]
    by_cases hppos : p.interval.start < ta.interval.start
    · have hbel : beforeOpt ta
          ((⟨p.status, ⟨p.interval.start, ta.interval.end_⟩⟩ :
            SingleStatusInterval) :: FM) = [p] := by
        rw [beforeOpt_cons, if_pos hppos]
        show [⟨p.status, ⟨p.interval.start, ta.interval.start⟩⟩] = [p]
        rw [← hpe]
      rw [hbel, List.flatMap_cons, haf, flatMap_afterFn_id ta FM hFMs]
      simp only [List.nil_append]
      rw [show P0' ++ ([p] ++ ta :: FM) = (P0' ++ [p]) ++ ta :: FM by simp]
      rw [smooth_merge_left P0' p ta FM hP0nm hFMnm hml hnr]
    · have hps : p.interval.start = ta.interval.start := by omega
      have hbel : beforeOpt ta
          ((⟨p.status, ⟨p.interval.start, ta.interval.end_⟩⟩ :
            SingleStatusInterval) :: FM) = [] := by
        rw [beforeOpt_cons, if_neg hppos]
      rw [hbel, List.flatMap_cons, haf, flatMap_afterFn_id ta FM hFMs]
      simp only [List.nil_append]
      have hmLta : (⟨p.status, ⟨p.interval.start, ta.interval.end_⟩⟩ :
          SingleStatusInterval) = ta := by
        rw [hml.1, hps]
      rw [hmLta]
      apply smooth_of_noMerge
      rw [List.chain'_append]
      refine ⟨hP0'nm, List.chain'_cons'.mpr ⟨hnr, hFMnm⟩, ?_⟩
      intro x hx y hy
      simp only [List.head?_cons, Option.mem_def, Option.some.injEq] at hy
      subst hy
      intro hc
      obtain ⟨hc1, hc2⟩ := hc
      exact hjP x hx ⟨hc1.trans hml.1.symm, hc2.trans hps.symm⟩
  · have hE : ta.interval.end_ = ta.interval.start := by omega
    rw [show P0' ++ (⟨p.status, ⟨p.interval.start, ta.interval.end_⟩⟩ :
        SingleStatusInterval) :: FM =
      (P0' ++ [⟨p.status, ⟨p.interval.start, ta.interval.end_⟩⟩]) ++ FM by simp]
    obtain ⟨htw, hdw⟩ := takeWhile_dropWhile_of_append (pb ta)
      (P0' ++ [⟨p.status, ⟨p.interval.start, ta.interval.end_⟩⟩]) FM
      (by
        intro x hx
        rcases List.mem_append.mp hx with hx1 | hx2
        · exact hP0pb x (List.mem_append_left _ hx1)
        · rcases List.mem_singleton.mp hx2 with rfl
          rw [pb_true_iff]
          show ta.interval.end_ ≤ ta.interval.start
          omega)
      (by
        intro y hy
        rw [pb_false_iff]
        exact hFMe y (List.mem_of_mem_head? hy))
    rw [htw, hdw]
    have hbo : beforeOpt ta FM = [] := by
      cases hfm : FM with
      | nil => exact beforeOpt_nil ta
      | cons y FM' =>
        rw [beforeOpt_cons]
        have := hFMs y (by rw [hfm]; exact List.mem_cons_self _ _)
        rw [if_neg (by omega)]
    rw [hbo, List.nil_append, flatMap_afterFn_id ta FM hFMs]
    rw [smooth_merge_left P0'
      (⟨p.status, ⟨p.interval.start, ta.interval.end_⟩⟩ : SingleStatusInterval)
      ta FM
      (by
        rw [List.chain'_append]
        refine ⟨hP0'nm, List.chain'_singleton _, ?_⟩
        intro x hx y hy
        simp only [List.head?_cons, Option.mem_def, Option.some.injEq] at hy
        subst hy
        intro hc
        exact hjP x hx ⟨hc.1, hc.2⟩)
      hFMnm ⟨hml.1, hE⟩ hnr]
    simp

/-- Re-splicing `to_add` into a smoothed state where it merged with its
right neighbour only reproduces the state. -/
theorem splice_smooth_fix_rn (ta y : SingleStatusInterval)
    (P0 FM' : List SingleStatusInterval)
    (hP0pb : ∀ x ∈ P0, pb ta x = true)
    (hP0nm : List.Chain' (fun a b => ¬ mg a b) P0)
    (hFMnm : List.Chain' (fun a b => ¬ mg a b) (y :: FM'))
    (hFMs : ∀ z ∈ y :: FM', ta.interval.end_ ≤ z.interval.start)
    (hFMe : ∀ z ∈ y :: FM', ta.interval.start < z.interval.end_)
    (hnl : ∀ x ∈ P0.getLast?, ¬ mg x ta)
    (hmr : mg ta y)
    (hwfy : y.interval.WF) (hta : ta.interval.WF)
    (hchL : List.Chain' (fun a b => a.interval.end_ ≤ b.interval.start)
      (P0 ++ (⟨ta.status, ⟨ta.interval.start, y.interval.end_⟩⟩ :
        SingleStatusInterval) :: FM'))
    (hwfL : ∀ x ∈ P0 ++ (⟨ta.status, ⟨ta.interval.start, y.interval.end_⟩⟩ :
        SingleStatusInterval) :: FM', x.interval.WF) :
    smooth_status_intervals (markLoop ta
        (P0 ++ (⟨ta.status, ⟨ta.interval.start, y.interval.end_⟩⟩ :
          SingleStatusInterval) :: FM') false) =
      P0 ++ (⟨ta.status, ⟨ta.interval.start, y.interval.end_⟩⟩ :
        SingleStatusInterval) :: FM' := by
  have htaw : ta.interval.start ≤ ta.interval.end_ := hta
  have hyw : y.interval.start ≤ y.interval.end_ := hwfy
  have hys : ta.interval.end_ = y.interval.start := hmr.2
  have hFM'nm : List.Chain' (fun a b => ¬ mg a b) FM' :=
    (List.chain'_cons'.mp hFMnm).2
  have hFMhead : ∀ z ∈ FM'.head?, ¬ mg y z :=
    (List.chain'_cons'.mp hFMnm).1
  have hFM's : ∀ z ∈ FM', ta.interval.end_ ≤ z.interval.start :=
    fun z hz => hFMs z (List.mem_cons_of_mem _ hz)
  rw [markLoop_false_eq ta _ hchL hwfL hta]
  obtain ⟨htw, hdw⟩ := takeWhile_dropWhile_of_append (pb ta) P0
    ((⟨ta.status, ⟨ta.interval.start, y.interval.end_⟩⟩ :
      SingleStatusInterval) :: FM')
    hP0pb (by
      intro z hz
      simp only [List.head?_cons, Option.mem_def, Option.some.injEq] at hz
      subst hz
      rw [pb_false_iff]
      exact hFMe y (List.mem_cons_self _ _))
  rw [htw, hdw, beforeOpt_cons,
    if_neg (lt_irrefl ta.interval.start), List.nil_append, List.flatMap_cons]
  by_cases hpos : ta.interval.start < ta.interval.end_
  · by_cases hypos : ta.interval.end_ < y.interval.end_
    · have haf : afterFn ta (⟨ta.status, ⟨ta.interval.start, y.interval.end_⟩⟩ :
          SingleStatusInterval) = [y] := by
        unfold afterFn
        rw [if_neg (show ¬ ta.interval.end_ ≤ ta.interval.start by omega),
          if_pos hypos]
        show [⟨ta.status, ⟨ta.interval.end_, y.interval.end_⟩⟩] = [y]
        rw [hmr.1, hys]
      rw [haf, flatMap_afterFn_id ta FM' hFM's]
      simp only [List.singleton_append]
      rw [smooth_merge_right P0 ta y FM' hP0nm hFMnm hnl hmr]
    · have hye : y.interval.end_ = ta.interval.end_ := by omega
      have haf : afterFn ta (⟨ta.status, ⟨ta.interval.start, y.interval.end_⟩⟩ :
          SingleStatusInterval) = [] := by
        unfold afterFn
        rw [if_neg (show ¬ ta.interval.end_ ≤ ta.interval.start by omega),
          if_neg hypos]
      rw [haf, flatMap_afterFn_id ta FM' hFM's]
      simp only [List.nil_append]
      rw [show (⟨ta.status, ⟨ta.interval.start, y.interval.end_⟩⟩ :
        SingleStatusInterval) = ta by rw [hye]]
      apply smooth_of_noMerge
      rw [List.chain'_append]
      refine ⟨hP0nm, List.chain'_cons'.mpr ⟨?_, hFM'nm⟩, ?_⟩
      · intro z hz hc
        obtain ⟨hc1, hc2⟩ := hc
        exact hFMhead z hz ⟨hmr.1.symm.trans hc1, hye.trans hc2⟩
      · intro x hx z hz
        simp only [List.head?_cons, Option.mem_def, Option.some.injEq] at hz
        subst hz
        exact hnl x hx
  · have hE : ta.interval.end_ = ta.interval.start := by omega
    have haf : afterFn ta (⟨ta.status, ⟨ta.interval.start, y.interval.end_⟩⟩ :
        SingleStatusInterval) =
        [⟨ta.status, ⟨ta.interval.start, y.interval.end_⟩⟩] := by
      unfold afterFn
      rw [if_pos (show ta.interval.end_ ≤ ta.interval.start by omega)]
    rw [haf, flatMap_afterFn_id ta FM' hFM's]
    simp only [List.singleton_append]
    rw [smooth_merge_right P0 ta
      (⟨ta.status, ⟨ta.interval.start, y.interval.end_⟩⟩ :
        SingleStatusInterval) FM' hP0nm
      (by
        rw [List.chain'_cons']
        refine ⟨?_, hFM'nm⟩
        intro z hz hc
        obtain ⟨hc1, hc2⟩ := hc
        exact hFMhead z hz ⟨hmr.1.symm.trans hc1, hc2⟩)
      hnl ⟨rfl, hE⟩]

/-- Re-splicing `to_add` into a smoothed state where it merged with both
neighbours reproduces the state. -/
theorem splice_smooth_fix_lr (ta p y : SingleStatusInterval)
    (P0' FM' : List SingleStatusInterval)
    (hP0pb : ∀ x ∈ P0' ++ [p], pb ta x = true)
    (hP0nm : List.Chain' (fun a b => ¬ mg a b) (P0' ++ [p]))
    (hFMnm : List.Chain' (fun a b => ¬ mg a b) (y :: FM'))
    (hFMs : ∀ z ∈ y :: FM', ta.interval.end_ ≤ z.interval.start)
    (hFMe : ∀ z ∈ y :: FM', ta.interval.start < z.interval.end_)
    (hml : mg p ta) (hmr : mg ta y)
    (hwfp : p.interval.WF) (hwfy : y.interval.WF) (hta : ta.interval.WF)
    (hchL : List.Chain' (fun a b => a.interval.end_ ≤ b.interval.start)
      (P0' ++ (⟨p.status, ⟨p.interval.start, y.interval.end_⟩⟩ :
        SingleStatusInterval) :: FM'))
    (hwfL : ∀ x ∈ P0' ++ (⟨p.status, ⟨p.interval.start, y.interval.end_⟩⟩ :
        SingleStatusInterval) :: FM', x.interval.WF) :
    smooth_status_intervals (markLoop ta
        (P0' ++ (⟨p.status, ⟨p.interval.start, y.interval.end_⟩⟩ :
          SingleStatusInterval) :: FM') false) =
      P0' ++ (⟨p.status, ⟨p.interval.start, y.interval.end_⟩⟩ :
        SingleStatusInterval) :: FM' := by
  have htaw : ta.interval.start ≤ ta.interval.end_ := hta
  have hpw : p.interval.start ≤ p.interval.end_ := hwfp
  have hyw : y.interval.start ≤ y.interval.end_ := hwfy
  have hpe : p.interval.end_ = ta.interval.start := hml.2
  have hys : ta.interval.end_ = y.interval.start := hmr.2
  have hP0'nm : List.Chain' (fun a b => ¬ mg a b) P0' :=
    (List.chain'_append.mp hP0nm).1
  have hjP : ∀ x ∈ P0'.getLast?, ¬ mg x p :=
    fun x hx => (List.chain'_append.mp hP0nm).2.2 x hx p rfl
  have hFM'nm : List.Chain' (fun a b => ¬ mg a b) FM' :=
    (List.chain'_cons'.mp hFMnm).2
  have hFMhead : ∀ z ∈ FM'.head?, ¬ mg y z :=
    (List.chain'_cons'.mp hFMnm).1
  have hFM's : ∀ z ∈ FM', ta.interval.end_ ≤ z.interval.start :=
    fun z hz => hFMs z (List.mem_cons_of_mem _ hz)
  rw [markLoop_false_eq ta _ hchL hwfL hta]
  obtain ⟨htw, hdw⟩ := takeWhile_dropWhile_of_append (pb ta) P0'
    ((⟨p.status, ⟨p.interval.start, y.interval.end_⟩⟩ :
      SingleStatusInterval) :: FM')
    (fun x hx => hP0pb x (List.mem_append_left _ hx))
    (by
      intro z hz
      simp only [List.head?_cons, Option.mem_def, Option.some.injEq] at hz
      subst hz
      rw [pb_false_iff]
      exact hFMe y (List.mem_cons_self _ _))
  rw [htw, hdw, beforeOpt_cons, List.flatMap_cons]
  by_cases hppos : p.interval.start < ta.interval.start
  · rw [if_pos hppos]
    have hbel : ([⟨(⟨p.status, ⟨p.interval.start, y.interval.end_⟩⟩ :
        SingleStatusInterval).status,
        ⟨(⟨p.status, ⟨p.interval.start, y.interval.end_⟩⟩ :
          SingleStatusInterval).interval.start, ta.interval.start⟩⟩] :
        List SingleStatusInterval) = [p] := by
      show [⟨p.status, ⟨p.interval.start, ta.interval.start⟩⟩] = [p]
      rw [← hpe]
    rw [hbel]
    by_cases hypos : ta.interval.end_ < y.interval.end_
    · have haf : afterFn ta (⟨p.status, ⟨p.interval.start, y.interval.end_⟩⟩ :
          SingleStatusInterval) = [y] := by
        unfold afterFn
        rw [if_neg (show ¬ ta.interval.end_ ≤ p.interval.start by omega),
          if_pos hypos]
        show [⟨p.status, ⟨ta.interval.end_, y.interval.end_⟩⟩] = [y]
        rw [hml.1, hmr.1, hys]
      rw [haf, flatMap_afterFn_id ta FM' hFM's]
      simp only [List.singleton_append]
      rw [show P0' ++ (p :: ta :: y :: FM') = (P0' ++ [p]) ++ ta :: y :: FM'
        by simp]
      rw [smooth_merge_both P0' p ta y FM' hP0nm hFMnm hml hmr]
    · have hye : y.interval.end_ = ta.interval.end_ := by omega
      have haf : afterFn ta (⟨p.status, ⟨p.interval.start, y.interval.end_⟩⟩ :
          SingleStatusInterval) = [] := by
        unfold afterFn
        rw [if_neg (show ¬ ta.interval.end_ ≤ p.interval.start by omega),
          if_neg hypos]
      rw [haf, flatMap_afterFn_id ta FM' hFM's]
      simp only [List.nil_append, List.singleton_append]
      rw [show P0' ++ (p :: ta :: FM') = (P0' ++ [p]) ++ ta :: FM' by simp]
      rw [smooth_merge_left P0' p ta FM' hP0nm hFM'nm hml
        (by
          intro z hz hc
          obtain ⟨hc1, hc2⟩ := hc
          exact hFMhead z hz ⟨hmr.1.symm.trans hc1, hye.trans hc2⟩)]
      rw [hye]
  · have hps : p.interval.start = ta.interval.start := by omega
    have hnl' : ∀ x ∈ P0'.getLast?, ¬ mg x ta := by
      intro x hx hc
      obtain ⟨hc1, hc2⟩ := hc
      exact hjP x hx ⟨hc1.trans hml.1.symm, hc2.trans hps.symm⟩
    rw [if_neg hppos, List.nil_append]
    by_cases hpos : ta.interval.start < ta.interval.end_
    · by_cases hypos : ta.interval.end_ < y.interval.end_
      · have haf : afterFn ta
            (⟨p.status, ⟨p.interval.start, y.interval.end_⟩⟩ :
              SingleStatusInterval) = [y] := by
          unfold afterFn
          rw [if_neg (show ¬ ta.interval.end_ ≤ p.interval.start by omega),
            if_pos hypos]
          show [⟨p.status, ⟨ta.interval.end_, y.interval.end_⟩⟩] = [y]
          rw [hml.1, hmr.1, hys]
        rw [haf, flatMap_afterFn_id ta FM' hFM's]
        simp only [List.singleton_append]
        rw [smooth_merge_right P0' ta y FM' hP0'nm hFMnm hnl' hmr]
        rw [hml.1, hps]
      · have hye : y.interval.end_ = ta.interval.end_ := by omega
        have haf : afterFn ta
            (⟨p.status, ⟨p.interval.start, y.interval.end_⟩⟩ :
              SingleStatusInterval) = [] := by
          unfold afterFn
          rw [if_neg (show ¬ ta.interval.end_ ≤ p.interval.start by omega),
            if_neg hypos]
        rw [haf, flatMap_afterFn_id ta FM' hFM's]
        simp only [List.nil_append]
        rw [show (⟨p.status, ⟨p.interval.start, y.interval.end_⟩⟩ :
          SingleStatusInterval) = ta by rw [hml.1, hps, hye]]
        apply smooth_of_noMerge
        rw [List.chain'_append]
        refine ⟨hP0'nm, List.chain'_cons'.mpr ⟨?_, hFM'nm⟩, ?_⟩
        · intro z hz hc
          obtain ⟨hc1, hc2⟩ := hc
          exact hFMhead z hz ⟨hmr.1.symm.trans hc1, hye.trans hc2⟩
        · intro x hx z hz
          simp only [List.head?_cons, Option.mem_def, Option.some.injEq] at hz
          subst hz
          exact hnl' x hx
    · have hE : ta.interval.end_ = ta.interval.start := by omega
      have haf : afterFn ta
          (⟨p.status, ⟨p.interval.start, y.interval.end_⟩⟩ :
            SingleStatusInterval) =
          [⟨p.status, ⟨p.interval.start, y.interval.end_⟩⟩] := by
        unfold afterFn
        rw [if_pos (show ta.interval.end_ ≤ p.interval.start by omega)]
      rw [haf, flatMap_afterFn_id ta FM' hFM's]
      simp only [List.singleton_append]
      rw [smooth_merge_right P0' ta
        (⟨p.status, ⟨p.interval.start, y.interval.end_⟩⟩ :
          SingleStatusInterval) FM' hP0'nm
        (by
          rw [List.chain'_cons']
          refine ⟨?_, hFM'nm⟩
          intro z hz hc
          obtain ⟨hc1, hc2⟩ := hc
          exact hFMhead z hz ⟨hmr.1.symm.trans (hml.1.symm.trans hc1), hc2⟩)
        hnl' ⟨hml.1.symm, hE.trans hps.symm⟩]
      rw [hml.1, hps]

/-- Assembles the no-merge chain for a spliced list from its junction
conditions. -/
theorem chain_noMerge_around (ta : SingleStatusInterval)
    (P0 FM : List SingleStatusInterval)
    (hP0nm : List.Chain' (fun a b => ¬ mg a b) P0)
    (hFMnm : List.Chain' (fun a b => ¬ mg a b) FM)
    (hnl : ∀ x ∈ P0.getLast?, ¬ mg x ta)
    (hnr : ∀ z ∈ FM.head?, ¬ mg ta z) :
    List.Chain' (fun a b => ¬ mg a b) (P0 ++ ta :: FM) := by
  rw [List.chain'_append]
  refine ⟨hP0nm, List.chain'_cons'.mpr ⟨hnr, hFMnm⟩, ?_⟩
  intro x hx z hz
  simp only [List.head?_cons, Option.mem_def, Option.some.injEq] at hz
  subst hz
  exact hnl x hx

/-- Well-formedness of segments is stable under merging abutting
segments. -/
theorem wf_merge (a b : SingleStatusInterval)
    (ha : a.interval.WF) (hb : b.interval.WF)
    (hab : a.interval.end_ = b.interval.start) :
    (⟨a.status, ⟨a.interval.start, b.interval.end_⟩⟩ :
      SingleStatusInterval).interval.WF := by
  have ha' : a.interval.start ≤ a.interval.end_ := ha
  have hb' : b.interval.start ≤ b.interval.end_ := hb
  show a.interval.start ≤ b.interval.end_
  omega

/-- Re-splicing `to_add` into the smoothed result of splicing it once
reproduces that result, whatever merges the smoothing pass performed. -/
theorem smooth_splice_fix_all (ta : SingleStatusInterval)
    (P0 FM : List SingleStatusInterval)
    (hP0pb : ∀ x ∈ P0, pb ta x = true)
    (hP0nm : List.Chain' (fun a b => ¬ mg a b) P0)
    (hFMnm : List.Chain' (fun a b => ¬ mg a b) FM)
    (hFMs : ∀ z ∈ FM, ta.interval.end_ ≤ z.interval.start)
    (hFMe : ∀ z ∈ FM, ta.interval.start < z.interval.end_)
    (hta : ta.interval.WF)
    (hchSp : List.Chain' (fun a b => a.interval.end_ ≤ b.interval.start)
      (P0 ++ ta :: FM))
    (hwfSp : ∀ x ∈ P0 ++ ta :: FM, x.interval.WF) :
    smooth_status_intervals (markLoop ta
        (smooth_status_intervals (P0 ++ ta :: FM)) false) =
      smooth_status_intervals (P0 ++ ta :: FM) := by
  have hchL' : List.Chain' (fun a b => a.interval.end_ ≤ b.interval.start)
      (smooth_status_intervals (P0 ++ ta :: FM)) := smooth_chain _ hchSp
  have hwfL' : ∀ x ∈ smooth_status_intervals (P0 ++ ta :: FM),
      x.interval.WF :=
    smooth_mem (fun x => x.interval.WF) wf_merge _ hwfSp
  rcases List.eq_nil_or_concat P0 with rfl | ⟨P0', p, hP0c⟩
  · have hnl : ∀ x ∈ ([] : List SingleStatusInterval).getLast?, ¬ mg x ta := by
      simp
    cases FM with
    | nil =>
      have hW : smooth_status_intervals
          (([] : List SingleStatusInterval) ++ ta :: []) = [] ++ ta :: [] :=
        smooth_of_noMerge _ (chain_noMerge_around ta [] [] List.chain'_nil
          List.chain'_nil hnl (by simp))
      rw [hW]
      exact splice_smooth_fix_nn ta [] [] (by simp) List.chain'_nil
        List.chain'_nil (by simp) (by simp) hnl (by simp) hta hchSp hwfSp
    | cons y FM' =>
      have hwfy : y.interval.WF := hwfSp y (by simp)
      by_cases hmr : mg ta y
      · have hW := smooth_merge_right [] ta y FM' List.chain'_nil hFMnm hnl hmr
        rw [hW]
        rw [hW] at hchL' hwfL'
        exact splice_smooth_fix_rn ta y [] FM' (by simp) List.chain'_nil
          hFMnm hFMs hFMe hnl hmr hwfy hta hchL' hwfL'
      · have hnr : ∀ z ∈ (y :: FM').head?, ¬ mg ta z := by
          intro z hz
          simp only [List.head?_cons, Option.mem_def, Option.some.injEq] at hz
          subst hz
          exact hmr
        have hW : smooth_status_intervals
            (([] : List SingleStatusInterval) ++ ta :: y :: FM') =
            [] ++ ta :: y :: FM' :=
          smooth_of_noMerge _ (chain_noMerge_around ta [] (y :: FM')
            List.chain'_nil hFMnm hnl hnr)
        rw [hW]
        exact splice_smooth_fix_nn ta [] (y :: FM') (by simp)
          List.chain'_nil hFMnm hFMs hFMe hnl hnr hta hchSp hwfSp
  · rw [List.concat_eq_append] at hP0c
    subst hP0c
    have hjlast : (P0' ++ [p]).getLast? = some p := List.getLast?_concat _
    have hwfp : p.interval.WF := hwfSp p (by simp)
    by_cases hml : mg p ta
    · cases FM with
      | nil =>
        have hW := smooth_merge_left P0' p ta [] hP0nm List.chain'_nil hml
          (by simp)
        rw [hW]
        rw [hW] at hchL' hwfL'
        exact splice_smooth_fix_ln ta p P0' [] hP0pb hP0nm List.chain'_nil
          (by simp) (by simp) hml (by simp) hwfp hta hchL' hwfL'
      | cons y FM' =>
        have hwfy : y.interval.WF := hwfSp y (by simp)
        by_cases hmr : mg ta y
        · have hW := smooth_merge_both P0' p ta y FM' hP0nm hFMnm hml hmr
          rw [hW]
          rw [hW] at hchL' hwfL'
          exact splice_smooth_fix_lr ta p y P0' FM' hP0pb hP0nm hFMnm
            hFMs hFMe hml hmr hwfp hwfy hta hchL' hwfL'
        · have hnr : ∀ z ∈ (y :: FM').head?, ¬ mg ta z := by
            intro z hz
            simp only [List.head?_cons, Option.mem_def, Option.some.injEq] at hz
            subst hz
            exact hmr
          have hW := smooth_merge_left P0' p ta (y :: FM') hP0nm hFMnm hml hnr
          rw [hW]
          rw [hW] at hchL' hwfL'
          exact splice_smooth_fix_ln ta p P0' (y :: FM') hP0pb hP0nm hFMnm
            hFMs hFMe hml hnr hwfp hta hchL' hwfL'
    · have hnl : ∀ x ∈ (P0' ++ [p]).getLast?, ¬ mg x ta := by
        intro x hx
        rw [hjlast] at hx
        simp only [Option.mem_def, Option.some.injEq] at hx
        subst hx
        exact hml
      cases FM with
      | nil =>
        have hW : smooth_status_intervals ((P0' ++ [p]) ++ ta :: []) =
            (P0' ++ [p]) ++ ta :: [] :=
          smooth_of_noMerge _ (chain_noMerge_around ta (P0' ++ [p]) []
            hP0nm List.chain'_nil hnl (by simp))
        rw [hW]
        exact splice_smooth_fix_nn ta (P0' ++ [p]) [] hP0pb hP0nm
          List.chain'_nil (by simp) (by simp) hnl (by simp) hta hchSp hwfSp
      | cons y FM' =>
        have hwfy : y.interval.WF := hwfSp y (by simp)
        by_cases hmr : mg ta y
        · have hW := smooth_merge_right (P0' ++ [p]) ta y FM' hP0nm hFMnm
            hnl hmr
          rw [hW]
          rw [hW] at hchL' hwfL'
          exact splice_smooth_fix_rn ta y (P0' ++ [p]) FM' hP0pb hP0nm
            hFMnm hFMs hFMe hnl hmr hwfy hta hchL' hwfL'
        · have hnr : ∀ z ∈ (y :: FM').head?, ¬ mg ta z := by
            intro z hz
            simp only [List.head?_cons, Option.mem_def, Option.some.injEq] at hz
            subst hz
            exact hmr
          have hW : smooth_status_intervals ((P0' ++ [p]) ++ ta :: y :: FM') =
              (P0' ++ [p]) ++ ta :: y :: FM' :=
            smooth_of_noMerge _ (chain_noMerge_around ta (P0' ++ [p])
              (y :: FM') hP0nm hFMnm hnl hnr)
          rw [hW]
          exact splice_smooth_fix_nn ta (P0' ++ [p]) (y :: FM') hP0pb hP0nm
            hFMnm hFMs hFMe hnl hnr hta hchSp hwfSp

/-- One splice-and-smooth pass is a fixed point of a second identical
pass: the list-level idempotence of `_mark`. -/
theorem smooth_splice_idem (ta : SingleStatusInterval)
    (l : List SingleStatusInterval)
    (hch : List.Chain' (fun a b => a.interval.end_ ≤ b.interval.start) l)
    (hnm : List.Chain' (fun a b => ¬ mg a b) l)
    (hwf : ∀ x ∈ l, x.interval.WF)
    (hta : ta.interval.WF) :
    smooth_status_intervals (markLoop ta
        (smooth_status_intervals (markLoop ta l false)) false) =
      smooth_status_intervals (markLoop ta l false) := by
  have htaw : ta.interval.start ≤ ta.interval.end_ := hta
  have hdecomp := List.takeWhile_append_dropWhile (pb ta) l
  have hch2 : List.Chain' (fun a b => a.interval.end_ ≤ b.interval.start)
      (l.takeWhile (pb ta) ++ l.dropWhile (pb ta)) := by
    rw [hdecomp]; exact hch
  obtain ⟨hchTW, hchDW, hjC⟩ := List.chain'_append.mp hch2
  have hnm2 : List.Chain' (fun a b => ¬ mg a b)
      (l.takeWhile (pb ta) ++ l.dropWhile (pb ta)) := by
    rw [hdecomp]; exact hnm
  obtain ⟨hnmTW, hnmDW, hjM⟩ := List.chain'_append.mp hnm2
  have hmemDW : ∀ x ∈ l.dropWhile (pb ta), x ∈ l := by
    intro x hx
    rw [← hdecomp]
    exact List.mem_append.mpr (Or.inr hx)
  have hwfDW : ∀ x ∈ l.dropWhile (pb ta), x.interval.WF :=
    fun x hx => hwf x (hmemDW x hx)
  have hFMnm := flatMap_afterFn_noMerge ta (l.dropWhile (pb ta))
    hchDW hnmDW hwfDW
  have hFMs : ∀ z ∈ (l.dropWhile (pb ta)).flatMap (afterFn ta),
      ta.interval.end_ ≤ z.interval.start :=
    fun z hz => flatMap_afterFn_start ta _ z hz
  have hFMe : ∀ z ∈ (l.dropWhile (pb ta)).flatMap (afterFn ta),
      ta.interval.start < z.interval.end_ := by
    intro z hz
    obtain ⟨r, hr, hzr⟩ := List.mem_flatMap.mp hz
    have hrb := dropWhile_pb_ends ta l hch hwf r hr
    rcases afterFn_mem ta r z hzr with ⟨rfl, _⟩ | ⟨rfl, _, _⟩
    · exact hrb
    · show ta.interval.start < r.interval.end_
      exact hrb
  have hBOsplit : beforeOpt ta (l.dropWhile (pb ta)) = [] ∨
      ∃ h, (l.dropWhile (pb ta)).head? = some h ∧
        h.interval.start < ta.interval.start ∧
        beforeOpt ta (l.dropWhile (pb ta)) =
          [⟨h.status, ⟨h.interval.start, ta.interval.start⟩⟩] := by
    cases hdw : l.dropWhile (pb ta) with
    | nil => exact Or.inl (beforeOpt_nil ta)
    | cons h t =>
      by_cases hh : h.interval.start < ta.interval.start
      · exact Or.inr ⟨h, rfl, hh, by rw [beforeOpt_cons, if_pos hh]⟩
      · exact Or.inl (by rw [beforeOpt_cons, if_neg hh])
  have hP0pb : ∀ x ∈ l.takeWhile (pb ta) ++ beforeOpt ta (l.dropWhile (pb ta)),
      pb ta x = true := by
    intro x hx
    rcases List.mem_append.mp hx with h1 | h2
    · exact List.mem_takeWhile_imp h1
    · rcases hBOsplit with hbo | ⟨h, hh, hhs, hbo⟩
      · rw [hbo] at h2
        exact absurd h2 (List.not_mem_nil x)
      · rw [hbo] at h2
        rcases List.mem_singleton.mp h2 with rfl
        rw [pb_true_iff]
  have hP0nm : List.Chain' (fun a b => ¬ mg a b)
      (l.takeWhile (pb ta) ++ beforeOpt ta (l.dropWhile (pb ta))) := by
    rcases hBOsplit with hbo | ⟨h, hh, hhs, hbo⟩
    · rw [hbo, List.append_nil]
      exact hnmTW
    · rw [hbo, List.chain'_append]
      refine ⟨hnmTW, List.chain'_singleton _, ?_⟩
      intro x hx z hz
      simp only [List.head?_cons, Option.mem_def, Option.some.injEq] at hz
      subst hz
      exact fun hc => hjM x hx h hh hc
  have hsp2 : markLoop ta l false =
      (l.takeWhile (pb ta) ++ beforeOpt ta (l.dropWhile (pb ta))) ++
        ta :: (l.dropWhile (pb ta)).flatMap (afterFn ta) := by
    rw [markLoop_false_eq ta l hch hwf hta, ← List.append_assoc]
  have hchSp : List.Chain' (fun a b => a.interval.end_ ≤ b.interval.start)
      ((l.takeWhile (pb ta) ++ beforeOpt ta (l.dropWhile (pb ta))) ++
        ta :: (l.dropWhile (pb ta)).flatMap (afterFn ta)) := by
    rw [← hsp2]
    exact markLoop_false_chain ta l hch hwf hta
  have hwfSp : ∀ x ∈ (l.takeWhile (pb ta) ++
        beforeOpt ta (l.dropWhile (pb ta))) ++
        ta :: (l.dropWhile (pb ta)).flatMap (afterFn ta), x.interval.WF := by
    intro x hx
    apply markLoop_false_wf ta l hch hwf hta
    rw [hsp2]
    exact hx
  rw [hsp2]
  exact smooth_splice_fix_all ta _ _ hP0pb hP0nm hFMnm hFMs hFMe hta
    hchSp hwfSp

theorem markD_invalid (m : MultiStatusInterval) (i : DateTimeInterval)
    (s : PyStatus) (h : isStrOrBytes s = false) : m.markD i s = m := by
  unfold MultiStatusInterval.markD MultiStatusInterval.mark
  rw [if_pos h]

theorem markD_none (m : MultiStatusInterval) (i : DateTimeInterval)
    (s : PyStatus) (hv : isStrOrBytes s = true)
    (ho : m.interval.overlap i = none) : m.markD i s = m := by
  unfold MultiStatusInterval.markD MultiStatusInterval.mark
  rw [if_neg (by rw [hv]; simp), ho]

theorem markD_some (m : MultiStatusInterval) (i : DateTimeInterval)
    (s : PyStatus) (c : DateTimeInterval) (hv : isStrOrBytes s = true)
    (ho : m.interval.overlap i = some c) :
    m.markD i s = m.markAdd ⟨s, c⟩ := by
  unfold MultiStatusInterval.markD MultiStatusInterval.mark
  rw [if_neg (by rw [hv]; simp), ho]

/-- `_mark` applied twice with the same clipped segment equals `_mark`
applied once, on invariant-satisfying states. -/
theorem markAdd_idem (m : MultiStatusInterval) (ta : SingleStatusInterval)
    (hch : List.Chain' (fun a b => a.interval.end_ ≤ b.interval.start)
      m.intervals)
    (hnm : List.Chain' (fun a b => ¬ mg a b) m.intervals)
    (hwf : ∀ x ∈ m.intervals, x.interval.WF)
    (hta : ta.interval.WF) :
    (m.markAdd ta).markAdd ta = m.markAdd ta := by
  have h := smooth_splice_idem ta m.intervals hch hnm hwf hta
  show MultiStatusInterval.mk m.interval
      (smooth_status_intervals (markLoop ta
        (smooth_status_intervals (markLoop ta m.intervals false)) false)) =
    MultiStatusInterval.mk m.interval
      (smooth_status_intervals (markLoop ta m.intervals false))
  rw [h]

/-- C8: marking is idempotent. For every `MultiStatusInterval` state
satisfying the invariant the class maintains (a well-formed bounding
interval; stored segments in ascending order, maximally merged, each
well-formed), every constructor-valid interval `i` and every status value
`s`, calling `mark(i, s)` twice in succession yields the same object state
as calling it once (an invalid status raises both times, changing
nothing). -/
theorem C8_mark_idempotent (m : MultiStatusInterval) (i : DateTimeInterval)
    (s : PyStatus)
    (hbw : m.interval.WF) (hiw : i.WF)
    (hch : List.Chain' (fun a b => a.interval.end_ ≤ b.interval.start)
      m.intervals)
    (hnm : List.Chain'
      (fun a b => ¬(a.status = b.status ∧ a.interval.end_ = b.interval.start))
      m.intervals)
    (hwf : ∀ x ∈ m.intervals, x.interval.WF) :
    (m.markD i s).markD i s = m.markD i s := by
  by_cases hst : isStrOrBytes s = false
  · rw [markD_invalid _ _ _ hst, markD_invalid _ _ _ hst]
  · have hv : isStrOrBytes s = true := by
      revert hst
      cases isStrOrBytes s <;> simp
    cases ho : m.interval.overlap i with
    | none =>
      rw [markD_none _ _ _ hv ho, markD_none _ _ _ hv ho]
    | some c =>
      have h1 : m.markD i s = m.markAdd ⟨s, c⟩ := markD_some _ _ _ _ hv ho
      have ho2 : (m.markD i s).interval.overlap i = some c := by
        rw [markD_interval]
        exact ho
      have h2 : (m.markD i s).markD i s = (m.markD i s).markAdd ⟨s, c⟩ :=
        markD_some _ _ _ _ hv ho2
      rw [h2, h1]
      apply markAdd_idem m ⟨s, c⟩ hch (hnm.imp (fun _ _ hab => hab)) hwf
      rw [overlap_eq_some_iff] at ho
      obtain ⟨⟨hov1, hov2⟩, rfl⟩ := ho
      have hbw' : m.interval.start ≤ m.interval.end_ := hbw
      have hiw' : i.start ≤ i.end_ := hiw
      show max m.interval.start i.start ≤ min m.interval.end_ i.end_
      simp only [max_le_iff, le_min_iff]
      omega

/-- Concrete instance of C8: marking `[10, 20)` with status `"A"` twice on
a fresh `[0, 100)` state equals marking it once. -/
theorem C8_witness :
    (((MultiStatusInterval.mk0 ⟨0, 100⟩).markD ⟨10, 20⟩
        (PyStatus.str "A")).markD ⟨10, 20⟩ (PyStatus.str "A")) =
      (MultiStatusInterval.mk0 ⟨0, 100⟩).markD ⟨10, 20⟩ (PyStatus.str "A") :=
  C8_mark_idempotent (MultiStatusInterval.mk0 ⟨0, 100⟩) ⟨10, 20⟩
    (PyStatus.str "A") (by decide) (by decide) List.chain'_nil
    List.chain'_nil (fun x hx => absurd hx (List.not_mem_nil x))
